import Mathlib

/-!
Verification of the transit-graph routing core of the dmrc-chatbot repository.

The Python sources are shallowly embedded:
* Python `dict`s become association lists (`List (key × value)`), looked up by
  first matching key; insertion appends, assignment to an existing key updates
  the first binding in place, matching CPython's insertion-ordered dicts.
* `float` edge weights become exact rationals `ℚ`; the algorithms only add and
  compare weights.
* Loops become fuel-indexed recursions.  A result of `none` means the fuel ran
  out (the Python loop would still be running); `some r` means the Python
  function returned, with `r : Option _` mirroring Python's `None` / value.
-/

namespace DMRC

/-- `d.get(k)` on an association list: the value of the first binding of `k`. -/
def dictGet {β : Type} : List (String × β) → String → Option β
  | [], _ => none
  | (a, b) :: rest, k => if a = k then some b else dictGet rest k

/-- `d[k] = v`: update the first binding of `k` in place, or append a new
binding at the end (CPython dict assignment). -/
def dictSet {β : Type} : List (String × β) → String → β → List (String × β)
  | [], k, v => [(k, v)]
  | (a, b) :: rest, k, v =>
    if a = k then (a, v) :: rest else (a, b) :: dictSet rest k v

/-- `k in d` for an association list. -/
def dictMem {β : Type} (d : List (String × β)) (k : String) : Bool :=
  (dictGet d k).isSome

/-- The edge weights of the Python graphs (floats), modeled as rationals. -/
abbrev Weight := ℚ

/-- `{station: {neighbor: weight, ...}, ...}` — the adjacency-dict graphs of
`routing.py`, `dmrc_graph.py` and `station_loader.py`. -/
abbrev AdjList := List (String × List (String × Weight))

/-- `graph.get(node, {})`: the neighbor dict of `node`, empty if absent. -/
def neighbors (g : AdjList) (v : String) : List (String × Weight) :=
  (dictGet g v).getD []

/-- `v in graph`. -/
def hasKey (g : AdjList) (v : String) : Bool :=
  (dictGet g v).isSome

/-- The weight the graph records for the directed edge `a → b`, if any. -/
def edgeWeight? (g : AdjList) (a b : String) : Option Weight :=
  dictGet (neighbors g a) b

/-- `b` appears among the recorded neighbors of `a`. -/
def adj (g : AdjList) (a b : String) : Prop :=
  (edgeWeight? g a b).isSome

instance adjDecidable (g : AdjList) (a b : String) : Decidable (adj g a b) :=
  inferInstanceAs (Decidable ((edgeWeight? g a b).isSome = true))

/-- A path of the claims: a nonempty vertex list from `a` to `b` in which every
consecutive pair is a recorded edge. -/
def IsPath (g : AdjList) (a b : String) (p : List String) : Prop :=
  p ≠ [] ∧ p.head? = some a ∧ p.getLast? = some b ∧ List.Chain' (adj g) p

instance isPathDecidable (g : AdjList) (a b : String) (p : List String) :
    Decidable (IsPath g a b p) :=
  inferInstanceAs (Decidable (p ≠ [] ∧ p.head? = some a ∧ p.getLast? = some b ∧
    List.Chain' (adj g) p))

/-- `b` is reachable from `a`: some path joins them. -/
def Reachable (g : AdjList) (a b : String) : Prop :=
  ∃ p, IsPath g a b p

/-- The effective weight `dijkstra` uses for one edge
(`weight if weight else 1.0`). -/
def effW (w : Weight) : Weight := if w = 0 then 1 else w

/-- Sum of the stored weights along a vertex list. -/
def pathCostStored (g : AdjList) : List String → Weight
  | a :: b :: rest => (edgeWeight? g a b).getD 0 + pathCostStored g (b :: rest)
  | _ => 0

/-- Sum of the effective weights along a vertex list. -/
def pathCostE (g : AdjList) : List String → Weight
  | a :: b :: rest => effW ((edgeWeight? g a b).getD 0) + pathCostE g (b :: rest)
  | _ => 0

/-- All recorded edge weights are nonnegative. -/
def NonnegW (g : AdjList) : Prop :=
  ∀ a b w, edgeWeight? g a b = some w → 0 ≤ w

/-- All recorded edge weights are strictly positive. -/
def PosW (g : AdjList) : Prop :=
  ∀ a b w, edgeWeight? g a b = some w → 0 < w

/-- Undirected symmetry with equal weights. -/
def EdgeSymm (g : AdjList) : Prop :=
  ∀ a b w, edgeWeight? g a b = some w → edgeWeight? g b a = some w

/-- Every recorded neighbor is itself a key of the graph. -/
def NbrClosed (g : AdjList) : Prop :=
  ∀ a b, adj g a b → hasKey g b

/-- Well-formedness inherited from Python dicts: no neighbor dict has a
duplicate key. -/
def NodupNbrKeys (g : AdjList) : Prop :=
  ∀ e ∈ g, (e.2.map Prod.fst).Nodup

instance nodupNbrKeysDecidable (g : AdjList) : Decidable (NodupNbrKeys g) :=
  inferInstanceAs (Decidable (∀ e ∈ g, (e.2.map Prod.fst).Nodup))

/-- Reachability as the reflexive-transitive closure of adjacency. -/
def reach (g : AdjList) : String → String → Prop :=
  Relation.ReflTransGen (adj g)

/-- Every station name occurring in some neighbor list. -/
def allNbrs (g : AdjList) : List String :=
  (g.map (fun e => e.2.map Prod.fst)).flatten

/-! ## `routing.py`: `bfs_shortest_path` -/

/-- The `for neighbor in graph.get(node, {})` body of `bfs_shortest_path`:
skip visited neighbors, return `path + [neighbor]` on the goal (`Sum.inl`),
otherwise mark visited and enqueue the extended path. -/
def bfsStep (goal : String) (path : List String) :
    List (String × Weight) → List String → List (List String) →
    (List String) ⊕ (List String × List (List String))
  | [], visited, queue => Sum.inr (visited, queue)
  | (n, _) :: rest, visited, queue =>
    if n ∈ visited then bfsStep goal path rest visited queue
    else if n = goal then Sum.inl (path ++ [n])
    else bfsStep goal path rest (n :: visited) (queue ++ [path ++ [n]])

/-- The `while queue` loop of `bfs_shortest_path`, fuel-indexed.  `none` means
fuel ran out; `some none` is Python's `return None`; `some (some p)` returns
path `p`.  The deque of paths is a list popped at the head, appended at the
tail. -/
def bfsLoop (g : AdjList) (goal : String) :
    ℕ → List String → List (List String) → Option (Option (List String))
  | 0, _, _ => none
  | _ + 1, _, [] => some none
  | fuel + 1, visited, path :: queue =>
    match bfsStep goal path (neighbors g (path.getLastD "")) visited queue with
    | Sum.inl found => some (some found)
    | Sum.inr (visited', queue') => bfsLoop g goal fuel visited' queue'

/-- Total length of all neighbor lists of `g`; bounds how many vertices a
traversal can ever mark visited beyond its start. -/
def totalNbrLen (g : AdjList) : ℕ := (g.map (fun e => e.2.length)).sum

/-- Fuel that provably outlasts the BFS loop. -/
def bfsFuel (g : AdjList) : ℕ := totalNbrLen g + 2

/-- `routing.bfs_shortest_path`: equality shortcut first, then the membership
check, then the breadth-first loop. -/
def bfs_shortest_path (g : AdjList) (start goal : String) :
    Option (Option (List String)) :=
  if start = goal then some (some [start])
  else if ¬ hasKey g start ∨ ¬ hasKey g goal then some none
  else bfsLoop g goal (bfsFuel g) [start] [[start]]

/-! ## `routing.py`: `get_all_paths_limited` -/

/-- The `for neighbor in graph.get(node, {})` loop of the inner `dfs`,
parameterized by the recursive call `f`. -/
def dfsNbrs (f : String → List String → List String → List (List String)) :
    List (String × Weight) → List String → List String → List (List String)
  | [], _, _ => []
  | (n, _) :: rest, path, visited =>
    (if n ∈ visited then [] else f n (path ++ [n]) (n :: visited)) ++
      dfsNbrs f rest path visited

/-- The recursive `dfs` of `get_all_paths_limited`.  Recursion depth is
bounded by the `len(path) > max_length` entry check, so at the fuel used by
`get_all_paths_limited` the `0` branch is exactly the Python base case. -/
def dfsAll (g : AdjList) (goal : String) (maxLength : ℕ) :
    ℕ → String → List String → List String → List (List String)
  | 0, _, _, _ => []
  | fuel + 1, node, path, visited =>
    if maxLength < path.length then []
    else if node = goal then [path]
    else dfsNbrs (fun n p v => dfsAll g goal maxLength fuel n p v)
      (neighbors g node) path visited

/-- `routing.get_all_paths_limited`. -/
def get_all_paths_limited (g : AdjList) (start goal : String) (maxLength : ℕ) :
    List (List String) :=
  if ¬ hasKey g start ∨ ¬ hasKey g goal then []
  else dfsAll g goal maxLength (maxLength + 2) start [start] [start]

/-! ## `routing.py`: `dijkstra` -/

/-- A `heapq` entry `(distance, node, path)` of `dijkstra`. -/
abbrev DEntry := Weight × String × List String

/-- Python list comparison (lexicographic, shorter prefix is smaller). -/
def pyListLt : List String → List String → Bool
  | [], [] => false
  | [], _ :: _ => true
  | _ :: _, [] => false
  | a :: as, b :: bs => if a < b then true else if b < a then false else pyListLt as bs

/-- Python tuple comparison on heap entries: distance, then node, then path. -/
def entryLt (e f : DEntry) : Bool :=
  if e.1 < f.1 then true
  else if f.1 < e.1 then false
  else if e.2.1 < f.2.1 then true
  else if f.2.1 < e.2.1 then false
  else pyListLt e.2.2 f.2.2

/-- Least entry of `e :: rest` in the tuple order (what `heapq.heappop`
returns; ties are between equal tuples, hence value-irrelevant). -/
def minEntry : DEntry → List DEntry → DEntry
  | e, [] => e
  | e, f :: rest => minEntry (if entryLt f e then f else e) rest

/-- Remove one occurrence of an entry from the queue. -/
def removeEntry : List DEntry → DEntry → List DEntry
  | [], _ => []
  | f :: rest, e => if f = e then rest else f :: removeEntry rest e

/-- The `for neighbor, weight in graph.get(node, {}).items()` loop of
`dijkstra`: a falsy (zero) weight is replaced by `1.0`, and the extended entry
is pushed unless `seen` already records a distance `≤` the new one. -/
def pushNeighbors (seen : List (String × Weight)) (distance : Weight)
    (path : List String) (queue : List DEntry) :
    List (String × Weight) → List DEntry
  | [] => queue
  | (nbr, w) :: rest =>
    let edge := if w = 0 then 1 else w
    let nd := distance + edge
    let queue' :=
      match dictGet seen nbr with
      | none => queue ++ [(nd, nbr, path ++ [nbr])]
      | some d => if nd < d then queue ++ [(nd, nbr, path ++ [nbr])] else queue
    pushNeighbors seen distance path queue' rest

/-- The `if node in seen and seen[node] <= distance: continue` stale-entry
check. -/
def seenSkip (seen : List (String × Weight)) (node : String)
    (distance : Weight) : Bool :=
  match dictGet seen node with
  | some d => decide (d ≤ distance)
  | none => false

/-- The `while priority_queue` loop of `dijkstra`, fuel-indexed; the heap is
modeled as a list from which `minEntry` is extracted. -/
def dijkstraLoop (g : AdjList) (goal : String) :
    ℕ → List DEntry → List (String × Weight) →
    Option (Option (Weight × List String))
  | 0, _, _ => none
  | _ + 1, [], _ => some none
  | fuel + 1, e :: rest, seen =>
    let m := minEntry e rest
    let queue' := removeEntry (e :: rest) m
    if seenSkip seen m.2.1 m.1 then dijkstraLoop g goal fuel queue' seen
    else
      let seen' := dictSet seen m.2.1 m.1
      if m.2.1 = goal then some (some (m.1, m.2.2))
      else dijkstraLoop g goal fuel
        (pushNeighbors seen' m.1 m.2.2 queue' (neighbors g m.2.1)) seen'

/-- Fuel that provably outlasts the Dijkstra loop on graphs with nonnegative
weights. -/
def dijkstraFuel (g : AdjList) : ℕ :=
  (totalNbrLen g + 1) * (totalNbrLen g + 1) + 2

/-- `routing.dijkstra`. -/
def dijkstra (g : AdjList) (start goal : String) :
    Option (Option (Weight × List String)) :=
  if start = goal then some (some (0, [start]))
  else if ¬ hasKey g start ∨ ¬ hasKey g goal then some none
  else dijkstraLoop g goal (dijkstraFuel g) [(0, start, [start])] []

/-! ## `routing.py`: `get_connected_component` and `is_reachable` -/

/-- Neighbor loop of `get_connected_component`: mark and enqueue fresh
neighbors. -/
def gccStep : List String → List String → List (String × Weight) →
    List String × List String
  | visited, queue, [] => (visited, queue)
  | visited, queue, (n, _) :: rest =>
    if n ∈ visited then gccStep visited queue rest
    else gccStep (n :: visited) (queue ++ [n]) rest

/-- The `while queue` loop of `get_connected_component`, fuel-indexed. -/
def gccLoop (g : AdjList) : ℕ → List String → List String → Option (List String)
  | 0, _, _ => none
  | _ + 1, visited, [] => some visited
  | fuel + 1, visited, node :: queue =>
    let s := gccStep visited queue (neighbors g node)
    gccLoop g fuel s.1 s.2

/-- Fuel that provably outlasts the component loop. -/
def gccFuel (g : AdjList) : ℕ := totalNbrLen g + 2

/-- `routing.get_connected_component`; the Python `set` of visited stations is
a list queried only by membership. -/
def get_connected_component (g : AdjList) (start : String) :
    Option (List String) :=
  if ¬ hasKey g start then some []
  else gccLoop g (gccFuel g) [start] [start]

/-- `routing.is_reachable`: membership of the goal in the connected component
of the start.  The `none` fuel case never occurs (`gccLoop_ne_none`). -/
def is_reachable (g : AdjList) (start goal : String) : Bool :=
  match get_connected_component g start with
  | some comp => comp.contains goal
  | none => false

/-! ## `dmrc_graph.py`: `build_metro_graph` -/

/-- The fields of a `STATION_DATASET` record that `build_metro_graph` reads. -/
structure StationRecord where
  name : String
  line : String
  nbrs : List String

/-- `if station not in graph: graph[station] = {}` (and the implicit creation
a `defaultdict(dict)` performs on first access). -/
def ensureKey (g : AdjList) (s : String) : AdjList :=
  if hasKey g s then g else g ++ [(s, [])]

/-- `graph[a][b] = w` for an existing key `a`. -/
def setEdge : AdjList → String → String → Weight → AdjList
  | [], _, _, _ => []
  | (k, nbrs) :: rest, a, b, w =>
    if k = a then (k, dictSet nbrs b w) :: rest
    else (k, nbrs) :: setEdge rest a b w

/-- The `for neighbor in record['neighbors']` body of `build_metro_graph`:
`graph[station][neighbor] = 1`, ensure the neighbor key, then
`graph[neighbor][station] = 1`. -/
def addRecordEdges (station : String) : AdjList → List String → AdjList
  | g, [] => g
  | g, nbr :: rest =>
    addRecordEdges station (setEdge (ensureKey (setEdge g station nbr 1) nbr) nbr station 1) rest

/-- `dmrc_graph.build_metro_graph`. -/
def build_metro_graph (dataset : List StationRecord) : AdjList :=
  dataset.foldl (fun g r => addRecordEdges r.name (ensureKey g r.name) r.nbrs) []

/-! ## `dmrc_routing.py` -/

/-- Neighbor loop of `find_shortest_path_bfs`: mark fresh neighbors visited and
enqueue the extended path. -/
def dmrcBfsStep (path : List String) :
    List String → List (List String) → List (String × Weight) →
    List String × List (List String)
  | visited, queue, [] => (visited, queue)
  | visited, queue, (n, _) :: rest =>
    if n ∈ visited then dmrcBfsStep path visited queue rest
    else dmrcBfsStep path (n :: visited) (queue ++ [path ++ [n]]) rest

/-- The `while queue` loop of `find_shortest_path_bfs` (goal test on pop).
`graph[node]` raises `KeyError` on a missing key in the source; that case is
modeled, like fuel exhaustion, as `none` (no normal return). -/
def dmrcBfsLoop (g : AdjList) (endNode : String) :
    ℕ → List String → List (List String) → Option (Option (List String))
  | 0, _, _ => none
  | _ + 1, _, [] => some none
  | fuel + 1, visited, path :: queue =>
    if path.getLastD "" = endNode then some (some path)
    else
      match dictGet g (path.getLastD "") with
      | none => none
      | some nbrs =>
        let s := dmrcBfsStep path visited queue nbrs
        dmrcBfsLoop g endNode fuel s.1 s.2

/-- `dmrc_routing.find_shortest_path_bfs`: membership checks first, then the
equality shortcut, then the loop. -/
def find_shortest_path_bfs (g : AdjList) (startNode endNode : String) :
    Option (Option (List String)) :=
  if ¬ hasKey g startNode then some none
  else if ¬ hasKey g endNode then some none
  else if startNode = endNode then some (some [startNode])
  else dmrcBfsLoop g endNode (bfsFuel g) [startNode] [[startNode]]

/-- The `STATION_LINE_LOOKUP` table: station name → list of its lines. -/
abbrev LineLookup := List (String × List String)

/-- `dmrc_routing.get_connecting_line`.  The source picks `list(common)[0]`
from an unordered Python set intersection; modeled deterministically as the
first line in `station1`'s list that `station2`'s list also contains. -/
def get_connecting_line (lk : LineLookup) (s1 s2 : String) : String :=
  match ((dictGet lk s1).getD []).find?
      (fun l => ((dictGet lk s2).getD []).contains l) with
  | some l => l
  | none => "Unknown Line"

/-- One step dict of `format_route_details` (`start`/`end`/`line`/`stops`;
`end` is a Lean keyword, hence `startS`/`endS`).  `stops` is an integer
difference of list indices. -/
structure RouteStep where
  startS : String
  endS : String
  line : String
  stops : ℤ
deriving DecidableEq

/-- The `for i in range(1, len(path) - 1)` loop of `format_route_details`,
over the explicit index list, carrying `(start_station, current_line,
route_steps)`. -/
def frdGo (lk : LineLookup) (path : List String) :
    List ℕ → String × String × List RouteStep → String × String × List RouteStep
  | [], st => st
  | i :: rest, (startStation, currentLine, steps) =>
    let nextLine := get_connecting_line lk (path.getD i "") (path.getD (i + 1) "")
    if nextLine ≠ currentLine then
      frdGo lk path rest
        (path.getD i "", nextLine,
          steps ++ [⟨startStation, path.getD i "", currentLine,
            (path.indexOf (path.getD i "") : ℤ) - (path.indexOf startStation : ℤ)⟩])
    else frdGo lk path rest (startStation, currentLine, steps)

/-- `dmrc_routing.format_route_details`. -/
def format_route_details (lk : LineLookup) (path : List String) :
    List RouteStep :=
  if path.length < 2 then []
  else
    let r := frdGo lk path (List.range' 1 (path.length - 2))
      (path.getD 0 "",
        get_connecting_line lk (path.getD 0 "") (path.getD 1 ""), [])
    r.2.2 ++ [⟨r.1, path.getLastD "", r.2.1,
      (path.length : ℤ) - 1 - (path.indexOf r.1 : ℤ)⟩]

/-- The result dict of `find_route` (the non-error shape). -/
structure RouteResult where
  source : String
  destination : String
  total_stations : ℕ
  interchanges : ℤ
  path : List String
  steps : List RouteStep
deriving DecidableEq

/-- `dmrc_routing.find_route`; the error dict is the inner `none`.  The
`if not path` guard is false both for `None` and for an empty list. -/
def find_route (g : AdjList) (lk : LineLookup) (source destination : String) :
    Option (Option RouteResult) :=
  match find_shortest_path_bfs g source destination with
  | none => none
  | some none => some none
  | some (some path) =>
    if path = [] then some none
    else
      let steps := format_route_details lk path
      some (some ⟨source, destination, path.length,
        (steps.length : ℤ) - 1, path, steps⟩)

/-! ## `dmrc_helpers.py`: name normalization and validation

String functions are modeled on `List Char`.  Python's whitespace and case
rules are modeled for the ASCII range the station names use. -/

/-- The whitespace characters `str.split()` splits on (ASCII range). -/
def isSpaceChar (c : Char) : Bool :=
  c == ' ' || c == '\t' || c == '\n' || c == '\r' || c == '\x0b' || c == '\x0c'

/-- `str.strip()`. -/
def pyStrip (l : List Char) : List Char :=
  ((l.dropWhile isSpaceChar).reverse.dropWhile isSpaceChar).reverse

/-- Worker for `str.split()`: accumulates the current word reversed. -/
def splitWsGo : List Char → List Char → List (List Char)
  | acc, [] => if acc = [] then [] else [acc.reverse]
  | acc, c :: rest =>
    if isSpaceChar c then
      if acc = [] then splitWsGo [] rest else acc.reverse :: splitWsGo [] rest
    else splitWsGo (c :: acc) rest

/-- `str.split()` with no argument: split on whitespace runs, no empty words. -/
def splitWs (l : List Char) : List (List Char) := splitWsGo [] l

/-- `str.title()`: a letter after a non-letter is uppercased, a letter after a
letter is lowercased (ASCII case mapping). -/
def titleGo : Bool → List Char → List Char
  | _, [] => []
  | prevAlpha, c :: rest =>
    if c.isAlpha then (if prevAlpha then c.toLower else c.toUpper) :: titleGo true rest
    else c :: titleGo false rest

/-- `" ".join(name.strip().split()).title()` on characters. -/
def normalizeChars (l : List Char) : List Char :=
  titleGo false (List.intercalate [' '] (splitWs (pyStrip l)))

/-- An arbitrary Python value passed as a station name: a string, or a
non-string with its truthiness. -/
inductive NameInput
  | str (s : String)
  | nonString (truthy : Bool)

/-- Python falsiness of the input (`if not name`). -/
def isFalsy : NameInput → Bool
  | .str s => s == ""
  | .nonString t => !t

/-- `dmrc_helpers.normalize_station_name`: non-strings map to `""`. -/
def normalize_station_name : NameInput → String
  | .str s => ⟨normalizeChars s.data⟩
  | .nonString _ => ""

/-- `str.lower()` (ASCII case mapping). -/
def pyLower (s : String) : String := ⟨s.data.map Char.toLower⟩

/-! ### `difflib.get_close_matches`, as `validate_station` calls it

`SequenceMatcher` with no junk and inputs far below the autojunk threshold:
the matching size is the recursive longest-contiguous-block decomposition. -/

/-- Length of the common prefix of two character lists. -/
def runLen : List Char → List Char → ℕ
  | a :: as, b :: bs => if a = b then runLen as bs + 1 else 0
  | _, _ => 0

/-- Best `(j, k)` over the suffixes of `b` for a fixed suffix of `a`: the
longest run, earliest `j` on ties. -/
def bestForI (aSuf : List Char) : List Char → ℕ → ℕ × ℕ
  | [], j => (j, 0)
  | bSuf@(_ :: bRest), j =>
    let k := runLen aSuf bSuf
    let jk := bestForI aSuf bRest (j + 1)
    if jk.2 > k then jk else (j, k)

/-- `find_longest_match` over whole sequences: longest block, earliest in `a`,
then earliest in `b`; returns `(i, j, k)`. -/
def bestGo : List Char → List Char → ℕ → ℕ × ℕ × ℕ
  | aSuf, b, i =>
    let jk := bestForI aSuf b 0
    match aSuf with
    | [] => (i, jk.1, jk.2)
    | _ :: aRest =>
      let ijk := bestGo aRest b (i + 1)
      if ijk.2.2 > jk.2 then ijk else (i, jk.1, jk.2)

/-- Total size of the matching blocks (`get_matching_blocks` recursion),
fuel-indexed; the fuel used by `matchSize` provably suffices since each
recursion strictly shrinks the total length. -/
def matchSizeF : ℕ → List Char → List Char → ℕ
  | 0, _, _ => 0
  | fuel + 1, a, b =>
    let ijk := bestGo a b 0
    if ijk.2.2 = 0 then 0
    else
      matchSizeF fuel (a.take ijk.1) (b.take ijk.2.1) + ijk.2.2 +
        matchSizeF fuel (a.drop (ijk.1 + ijk.2.2)) (b.drop (ijk.2.1 + ijk.2.2))

/-- `sum(block.size for block in get_matching_blocks())`. -/
def matchSize (a b : List Char) : ℕ := matchSizeF (a.length + b.length + 1) a b

/-- `SequenceMatcher.ratio()`: `2 * M / T`, and `1.0` for two empty
sequences.  Float arithmetic is modeled exactly in `ℚ`. -/
def ratio (a b : List Char) : ℚ :=
  if a.length + b.length = 0 then 1
  else 2 * (matchSize a b : ℚ) / ((a.length : ℚ) + (b.length : ℚ))

/-- The largest `(score, name)` pair by Python tuple comparison
(`heapq.nlargest(1, result)`). -/
def maxPair : List (ℚ × String) → Option (ℚ × String)
  | [] => none
  | p :: rest =>
    match maxPair rest with
    | none => some p
    | some q => some (if p.1 < q.1 ∨ (p.1 = q.1 ∧ p.2 < q.2) then q else p)

/-- `difflib.get_close_matches(word, possibilities, n=1, cutoff)`: keep the
candidates whose ratio to `word` meets the cutoff, return the best one.  The
`real_quick_ratio`/`quick_ratio` prefilters are upper bounds of `ratio` and do
not change the result. -/
def get_close_matches1 (word : String) (possibilities : List String)
    (cutoff : ℚ) : List String :=
  let result := possibilities.filterMap (fun x =>
    let r := ratio x.data word.data
    if cutoff ≤ r then some (r, x) else none)
  match maxPair result with
  | some p => [p.2]
  | none => []

/-- `dmrc_helpers.validate_station`, with the key set of the global
`METRO_GRAPH` as the `vertices` parameter.  The Python cutoff literal `0.6`
is the rational `3/5`. -/
def validate_station (vertices : List String) (name : NameInput) :
    Bool × Option String :=
  if isFalsy name then (false, none)
  else
    let clean := normalize_station_name name
    if vertices.contains clean then (true, some clean)
    else
      let lowerMap := vertices.foldl (fun m k => dictSet m (pyLower k) k) []
      match dictGet lowerMap (pyLower clean) with
      | some k => (true, some k)
      | none =>
        match get_close_matches1 clean vertices (3 / 5) with
        | m :: _ => (false, some m)
        | [] => (false, none)

/-! ## `station_loader.py`: `StationLoader._add_edge` -/

/-- `StationLoader._add_edge`.  `haversine_km` is float trigonometry on the
stored coordinates; it is modeled as an arbitrary function `dist` because
`_add_edge` computes the value once and writes that same value in both
directions.  `hasStation` and `hasCoords` model `a in self.stations` and
`self._has_coords`; the `defaultdict(dict)` auto-creation of `self.graph[x]`
is `ensureKey`. -/
def add_edge (dist : String → String → Weight)
    (hasStation hasCoords : String → Bool) (g : AdjList) (a b : String) :
    AdjList :=
  if ¬ hasStation a ∨ ¬ hasStation b then g
  else
    let d := if hasCoords a ∧ hasCoords b then dist a b else 1
    setEdge (ensureKey (setEdge (ensureKey g a) a b d) b) b a d

/-! ## Derived notions and concrete instances used by the claims -/

/-- The connecting line of each consecutive edge of a path. -/
def lineSeq (lk : LineLookup) (p : List String) : List String :=
  (p.zip p.tail).map (fun ab => get_connecting_line lk ab.1 ab.2)

/-- Number of positions at which a list changes value. -/
def countChanges : List String → ℕ
  | a :: b :: rest => (if a = b then 0 else 1) + countChanges (b :: rest)
  | _ => 0

/-- A two-station line, used as a concrete instance. -/
def gS12 : AdjList := [("S1", [("S2", 1)]), ("S2", [("S1", 1)])]

/-- A graph with a zero-weight edge `A–B` and a negative self-loop on `C`:
the only path from `A` to `B` is the direct edge, yet `dijkstra` runs
forever on it. -/
def gNeg : AdjList :=
  [("A", [("B", 0), ("C", 1 / 2)]), ("B", []), ("C", [("C", -1)])]

/-- A two-vertex graph whose only edge `A–B` has stored weight `0`. -/
def gZ : AdjList := [("A", [("B", 0)]), ("B", [])]

/-- The `while` loop of `dijkstra` started on `start`/`goal` never returns,
whatever the fuel. -/
def dijkstraNeverReturns (g : AdjList) (start goal : String) : Prop :=
  ∀ fuel, dijkstraLoop g goal fuel [(0, start, [start])] [] = none

/-- The hypotheses of claim C10 at a given graph and vertex pair: distinct
vertices joined by a zero-weight edge, with no other path from `a` to `b` of
stored total weight below `1.0`. -/
def ZeroEdgeOnlyCheapPath (g : AdjList) (a b : String) : Prop :=
  a ≠ b ∧ hasKey g a ∧ hasKey g b ∧ edgeWeight? g a b = some 0 ∧
    ∀ q, IsPath g a b q → q ≠ [a, b] → 1 ≤ pathCostStored g q

/-! # Theorems -/

theorem dictGet_dictSet_self {β : Type} (d : List (String × β)) (k : String) (v : β) :
    dictGet (dictSet d k v) k = some v := by
  induction d with
  | nil => simp [dictGet, dictSet]
  | cons p rest ih =>
    obtain ⟨a, b⟩ := p
    by_cases h : a = k <;> simp [dictGet, dictSet, h, ih]

theorem dictGet_dictSet_ne {β : Type} (d : List (String × β)) (k k' : String) (v : β)
    (h : k ≠ k') : dictGet (dictSet d k v) k' = dictGet d k' := by
  induction d with
  | nil => simp [dictGet, dictSet, h]
  | cons p rest ih =>
    obtain ⟨a, b⟩ := p
    by_cases ha : a = k
    · subst ha
      simp [dictGet, dictSet, h]
    · simp only [dictSet, if_neg ha]
      by_cases ha' : a = k' <;> simp [dictGet, ha', ih]

theorem isPath_singleton (g : AdjList) (a : String) : IsPath g a a [a] := by
  simp [IsPath]

theorem reachable_refl (g : AdjList) (a : String) : Reachable g a a :=
  ⟨[a], isPath_singleton g a⟩

theorem IsPath.length_pos {g : AdjList} {a b : String} {p : List String}
    (h : IsPath g a b p) : 0 < p.length :=
  List.length_pos.mpr h.1

theorem IsPath.head_eq {g : AdjList} {a b : String} {p : List String}
    (h : IsPath g a b p) : p.head h.1 = a := by
  have := h.2.1
  rwa [List.head?_eq_head h.1, Option.some_inj] at this

theorem IsPath.getLast_eq {g : AdjList} {a b : String} {p : List String}
    (h : IsPath g a b p) : p.getLast h.1 = b := by
  have := h.2.2.1
  rwa [List.getLast?_eq_getLast p h.1, Option.some_inj] at this

/-- Extending a path by one recorded edge at its end. -/
theorem IsPath.snoc {g : AdjList} {a b c : String} {p : List String}
    (h : IsPath g a b p) (hbc : adj g b c) : IsPath g a c (p ++ [c]) := by
  obtain ⟨hne, hhd, hlast, hchain⟩ := h
  refine ⟨by simp, ?_, ?_, ?_⟩
  · cases p with
    | nil => exact absurd rfl hne
    | cons x xs => simpa using hhd
  · simp [List.getLast?_concat]
  · rw [List.chain'_append]
    refine ⟨hchain, List.chain'_singleton c, ?_⟩
    intro x hx y hy
    rw [hlast] at hx
    simp only [List.head?_cons, Option.mem_def, Option.some_inj] at hx hy
    subst hx; subst hy
    exact hbc

/-! ## Claim C5 — missing endpoints -/

/-- C5 counterexample: with `start == goal` an absent station, `routing.py`'s
`bfs_shortest_path` returns the single-vertex list, not `None`, because the
equality shortcut runs before the membership check. -/
theorem C5_ghost_start_counterexample :
    hasKey gS12 "Ghost" = false ∧
      bfs_shortest_path gS12 "Ghost" "Ghost" = some (some ["Ghost"]) := by
  constructor
  · decide
  · rfl

/-- C5 (amended): when an endpoint is absent, `find_shortest_path_bfs`
(`dmrc_routing.py`) returns `None` in every case, and `bfs_shortest_path`
(`routing.py`) returns `None` whenever `start ≠ goal` but returns `[start]`
when `start == goal`, even for an absent station. -/
theorem C5_missing_endpoint_behavior (g : AdjList) (s t : String)
    (h : hasKey g s = false ∨ hasKey g t = false) :
    find_shortest_path_bfs g s t = some none ∧
      (s ≠ t → bfs_shortest_path g s t = some none) ∧
      (s = t → bfs_shortest_path g s t = some (some [s])) := by
  refine ⟨?_, ?_, ?_⟩
  · unfold find_shortest_path_bfs
    rcases h with h | h
    · simp [h]
    · by_cases hs : hasKey g s <;> simp [h, hs]
  · intro hne
    unfold bfs_shortest_path
    rcases h with h | h <;> simp [hne, h]
  · intro he
    subst he
    simp [bfs_shortest_path]

theorem C5_missing_endpoint_witness :
    find_shortest_path_bfs gS12 "Ghost" "S1" = some none ∧
      ("Ghost" ≠ "S1" → bfs_shortest_path gS12 "Ghost" "S1" = some none) ∧
      ("Ghost" = "S1" → bfs_shortest_path gS12 "Ghost" "S1" = some (some ["Ghost"])) :=
  C5_missing_endpoint_behavior gS12 "Ghost" "S1" (Or.inl (by decide))

/-! ## Claim C4 — single-vertex route -/

/-- C4: a single-vertex path yields zero segments, but `find_route(v, v)`
reports `interchanges = len([]) - 1 = -1`, not the `0` the claim and spec
require: the code is wrong on this corner. -/
theorem C4_single_vertex_route (g : AdjList) (lk : LineLookup) (v : String)
    (h : hasKey g v = true) :
    format_route_details lk [v] = [] ∧
      find_route g lk v v = some (some ⟨v, v, 1, -1, [v], []⟩) := by
  constructor
  · simp [format_route_details]
  · unfold find_route find_shortest_path_bfs
    simp [h, format_route_details]

theorem C4_single_vertex_route_witness :
    format_route_details [] ["S1"] = [] ∧
      find_route gS12 [] "S1" "S1" = some (some ⟨"S1", "S1", 1, -1, ["S1"], []⟩) :=
  C4_single_vertex_route gS12 [] "S1" (by decide)

/-! ## Claims C7, C8 — name normalization and validation -/

theorem string_data_eq_nil {s : String} : s.data = [] ↔ s = "" := by
  constructor
  · intro h
    apply String.ext
    simpa using h
  · intro h
    subst h
    rfl

theorem pyLower_eq_empty_iff (s : String) : pyLower s = "" ↔ s = "" := by
  constructor
  · intro h
    have hd : s.data.map Char.toLower = [] := congrArg String.data h
    rw [List.map_eq_nil_iff] at hd
    exact string_data_eq_nil.mp hd
  · intro h
    subst h
    rfl

/-- If no vertex lowercases to `key`, the lowercase→canonical fold has no
binding for `key`. -/
theorem lowerFold_get_none (vertices : List String) (key : String)
    (hk : ∀ k ∈ vertices, pyLower k ≠ key) :
    ∀ m : List (String × String), dictGet m key = none →
      dictGet (vertices.foldl (fun m k => dictSet m (pyLower k) k) m) key = none := by
  induction vertices with
  | nil => intro m hm; exact hm
  | cons k rest ih =>
    intro m hm
    simp only [List.foldl_cons]
    apply ih
    · intro x hx
      exact hk x (by simp [hx])
    · rw [dictGet_dictSet_ne _ _ _ _ (hk k (by simp))]
      exact hm

theorem bestGo_nil_k (a : List Char) (i : ℕ) : (bestGo a [] i).2.2 = 0 := by
  induction a generalizing i with
  | nil => rfl
  | cons c rest ih =>
    unfold bestGo
    simp only [bestForI]
    rw [ih (i + 1)]
    simp

theorem matchSizeF_nil_right (fuel : ℕ) (a : List Char) :
    matchSizeF fuel a [] = 0 := by
  cases fuel with
  | zero => rfl
  | succ f =>
    unfold matchSizeF
    simp [bestGo_nil_k]

theorem ratio_nil_right (a : List Char) (h : a ≠ []) : ratio a [] = 0 := by
  unfold ratio matchSize
  rw [matchSizeF_nil_right]
  have : a.length ≠ 0 := fun hc => h (List.length_eq_zero.mp hc)
  simp [this]

/-- An empty query is below the `0.6` cutoff against every nonempty vertex
name. -/
theorem get_close_matches1_empty_word (vertices : List String)
    (hv : "" ∉ vertices) : get_close_matches1 "" vertices (3 / 5) = [] := by
  unfold get_close_matches1
  have hnil : vertices.filterMap (fun x =>
      let r := ratio x.data "".data
      if (3 : ℚ) / 5 ≤ r then some (r, x) else none) = [] := by
    rw [List.filterMap_eq_nil_iff]
    intro x hx
    have hx0 : x ≠ "" := fun h => hv (h ▸ hx)
    have hd : x.data ≠ [] := fun h => hx0 (string_data_eq_nil.mp h)
    have : ratio x.data "".data = 0 := ratio_nil_right x.data hd
    simp only [this]
    norm_num
  rw [hnil]
  rfl

/-- C8: empty or non-string input — "", `None`, numbers, … — yields
`(False, None)` from `validate_station` (the vertex set never contains the
empty name, which holds for `METRO_GRAPH`). -/
theorem C8_empty_or_nonstring_input (vertices : List String) (name : NameInput)
    (hv : "" ∉ vertices)
    (h : name = .str "" ∨ ∃ t, name = .nonString t) :
    validate_station vertices name = (false, none) := by
  rcases h with h | ⟨t, h⟩
  · subst h
    rfl
  · subst h
    cases t with
    | false => rfl
    | true =>
      unfold validate_station
      have hcont : vertices.contains "" = false := by
        by_contra hc
        rw [Bool.not_eq_false] at hc
        exact hv (List.mem_of_elem_eq_true hc)
      have hlm : dictGet (vertices.foldl
          (fun m k => dictSet m (pyLower k) k) []) "" = none := by
        apply lowerFold_get_none vertices "" _ [] rfl
        intro k hk hlk
        exact hv (((pyLower_eq_empty_iff k).mp hlk) ▸ hk)
      simp only [isFalsy, normalize_station_name]
      rw [if_neg (by simp)]
      simp only [hcont, Bool.false_eq_true, if_false]
      have hpl : pyLower "" = "" := rfl
      rw [hpl, hlm, get_close_matches1_empty_word vertices hv]

theorem C8_empty_or_nonstring_input_witness :
    validate_station ["Rajiv Chowk"] (.nonString true) = (false, none) :=
  C8_empty_or_nonstring_input ["Rajiv Chowk"] (.nonString true)
    (by decide) (Or.inr ⟨true, rfl⟩)

/-- C7: normalization collapses whitespace and title-cases
(`"rajiv   chowk"` ↦ `"Rajiv Chowk"`), and a (nonempty) input whose
normalized form is a stored vertex exact-matches it. -/
theorem C7_normalization_exact_match (vertices : List String) (s : String)
    (hs : s ≠ "") (hmem : normalize_station_name (.str s) ∈ vertices) :
    normalize_station_name (.str "rajiv   chowk") = "Rajiv Chowk" ∧
      validate_station vertices (.str s) =
        (true, some (normalize_station_name (.str s))) ∧
      validate_station ["Rajiv Chowk"] (.str "rajiv   chowk") =
        (true, some "Rajiv Chowk") := by
  refine ⟨by decide, ?_, by decide⟩
  unfold validate_station
  have hfalsy : isFalsy (.str s) = false := by
    simp [isFalsy, hs]
  have hcont : vertices.contains (normalize_station_name (.str s)) = true :=
    List.elem_eq_true_of_mem hmem
  rw [if_neg (by simp [hfalsy])]
  simp only [hcont, if_true]

theorem C7_normalization_exact_match_witness :
    normalize_station_name (.str "rajiv   chowk") = "Rajiv Chowk" ∧
      validate_station ["Rajiv Chowk"] (.str "rajiv   chowk") =
        (true, some (normalize_station_name (.str "rajiv   chowk"))) ∧
      validate_station ["Rajiv Chowk"] (.str "rajiv   chowk") =
        (true, some "Rajiv Chowk") :=
  C7_normalization_exact_match ["Rajiv Chowk"] "rajiv   chowk"
    (by decide) (by decide)

/-! ## Claim C6 — builder symmetry -/

theorem dictGet_append {β : Type} (d1 d2 : List (String × β)) (k : String) :
    dictGet (d1 ++ d2) k =
      match dictGet d1 k with
      | some v => some v
      | none => dictGet d2 k := by
  induction d1 with
  | nil => simp [dictGet]
  | cons p rest ih =>
    obtain ⟨a, b⟩ := p
    by_cases h : a = k <;> simp [dictGet, h, ih]

theorem ensureKey_of_hasKey {g : AdjList} {s : String} (h : hasKey g s = true) :
    ensureKey g s = g := by
  simp [ensureKey, h]

theorem neighbors_ensureKey (g : AdjList) (s x : String) :
    neighbors (ensureKey g s) x = neighbors g x := by
  unfold ensureKey
  by_cases h : hasKey g s
  · simp [h]
  · simp only [h, if_false, Bool.false_eq_true]
    unfold neighbors
    rw [dictGet_append]
    cases hx : dictGet g x with
    | some nbrs => rfl
    | none =>
      by_cases hsx : s = x <;> simp [dictGet, hsx]

theorem hasKey_ensureKey (g : AdjList) (s x : String) :
    hasKey (ensureKey g s) x = (hasKey g x || x == s) := by
  unfold ensureKey hasKey
  by_cases h : (dictGet g s).isSome
  · rw [if_pos h]
    by_cases hx : x = s
    · subst hx
      simp [h]
    · simp [hx]
  · rw [if_neg h, dictGet_append]
    cases hg : dictGet g x with
    | some nbrs => simp
    | none =>
      by_cases hsx : s = x
      · subst hsx
        simp [dictGet]
      · have hxs : ¬ x = s := fun hh => hsx hh.symm
        simp [dictGet, hsx, hxs]

theorem hasKey_setEdge (g : AdjList) (a b : String) (w : Weight) (x : String) :
    hasKey (setEdge g a b w) x = hasKey g x := by
  induction g with
  | nil => rfl
  | cons p rest ih =>
    obtain ⟨k, nbrs⟩ := p
    by_cases hk : k = a
    · subst hk
      by_cases hx : k = x <;> simp [setEdge, hasKey, dictGet, hx]
    · by_cases hx : k = x
      · subst hx
        simp [setEdge, hasKey, dictGet, hk]
      · simp only [setEdge, if_neg hk]
        simp only [hasKey, dictGet, if_neg hx]
        exact ih

theorem neighbors_setEdge_ne (g : AdjList) {a x : String} (b : String) (w : Weight)
    (h : x ≠ a) : neighbors (setEdge g a b w) x = neighbors g x := by
  induction g with
  | nil => rfl
  | cons p rest ih =>
    obtain ⟨k, nbrs⟩ := p
    by_cases hk : k = a
    · subst hk
      have hx : ¬ (k = x) := fun hh => h hh.symm
      simp [setEdge, neighbors, dictGet, hx]
    · by_cases hkx : k = x
      · subst hkx
        simp [setEdge, neighbors, dictGet, hk]
      · simp only [setEdge, if_neg hk]
        simp only [neighbors, dictGet, if_neg hkx]
        exact ih

theorem neighbors_setEdge_self (g : AdjList) (a b : String) (w : Weight)
    (h : hasKey g a = true) :
    neighbors (setEdge g a b w) a = dictSet (neighbors g a) b w := by
  induction g with
  | nil => simp [hasKey, dictGet] at h
  | cons p rest ih =>
    obtain ⟨k, nbrs⟩ := p
    by_cases hk : k = a
    · subst hk
      simp [setEdge, neighbors, dictGet]
    · have h' : hasKey rest a = true := by
        simpa [hasKey, dictGet, hk] using h
      simp only [setEdge, if_neg hk]
      simp only [neighbors, dictGet, if_neg hk]
      exact ih h'

theorem setEdge_of_not_hasKey {g : AdjList} {a : String} (b : String) (w : Weight)
    (h : hasKey g a = false) : setEdge g a b w = g := by
  induction g with
  | nil => rfl
  | cons p rest ih =>
    obtain ⟨k, nbrs⟩ := p
    by_cases hk : k = a
    · subst hk; simp [hasKey, dictGet] at h
    · have h' : hasKey rest a = false := by
        simpa [hasKey, dictGet, hk] using h
      simp [setEdge, hk, ih h']

/-- The composite "write both directions" update
(`graph[a][b] = w; graph[b][a] = w`, each key auto-created) performed for one
neighbor by `build_metro_graph` and by `_add_edge`: its effect on any recorded
edge weight. -/
theorem edgeWeight_symPair (g : AdjList) (a b : String) (w : Weight) (x y : String) :
    edgeWeight? (setEdge (ensureKey (setEdge (ensureKey g a) a b w) b) b a w) x y =
      if x = b ∧ y = a then some w
      else if x = a ∧ y = b then some w
      else edgeWeight? g x y := by
  have hka : hasKey (ensureKey g a) a = true := by simp [hasKey_ensureKey]
  have hkb : hasKey (ensureKey (setEdge (ensureKey g a) a b w) b) b = true := by
    simp [hasKey_ensureKey]
  have hB : ∀ z, neighbors (setEdge (ensureKey g a) a b w) z =
      if z = a then dictSet (neighbors g a) b w else neighbors g z := by
    intro z
    by_cases hz : z = a
    · subst hz
      rw [if_pos rfl, neighbors_setEdge_self _ _ _ _ hka, neighbors_ensureKey]
    · rw [if_neg hz, neighbors_setEdge_ne _ _ _ hz, neighbors_ensureKey]
  have hA : neighbors (setEdge (ensureKey (setEdge (ensureKey g a) a b w) b) b a w) x =
      if x = b then dictSet (neighbors (setEdge (ensureKey g a) a b w) b) a w
      else neighbors (setEdge (ensureKey g a) a b w) x := by
    by_cases hx : x = b
    · subst hx
      rw [if_pos rfl, neighbors_setEdge_self _ _ _ _ hkb, neighbors_ensureKey]
    · rw [if_neg hx, neighbors_setEdge_ne _ _ _ hx, neighbors_ensureKey]
  unfold edgeWeight?
  rw [hA]
  by_cases hxb : x = b
  · rw [if_pos hxb, hB b]
    by_cases hya : y = a
    · rw [if_pos (⟨hxb, hya⟩ : x = b ∧ y = a), hya, dictGet_dictSet_self]
    · rw [if_neg (fun hc : x = b ∧ y = a => hya hc.2)]
      rw [dictGet_dictSet_ne _ _ _ _ (fun hh : a = y => hya hh.symm)]
      by_cases hba : b = a
      · by_cases hyb : y = b
        · rw [if_pos (⟨hxb.trans hba, hyb⟩ : x = a ∧ y = b), if_pos hba, hyb,
            dictGet_dictSet_self]
        · rw [if_neg (fun hc : x = a ∧ y = b => hyb hc.2), if_pos hba]
          rw [dictGet_dictSet_ne _ _ _ _ (fun hh : b = y => hyb hh.symm)]
          rw [hxb, hba]
      · rw [if_neg (fun hc : x = a ∧ y = b => hba (hxb.symm.trans hc.1)),
          if_neg hba, hxb]
  · rw [if_neg hxb, hB x]
    rw [if_neg (fun hc : x = b ∧ y = a => hxb hc.1)]
    by_cases hxa : x = a
    · rw [if_pos hxa]
      by_cases hyb : y = b
      · rw [if_pos (⟨hxa, hyb⟩ : x = a ∧ y = b), hyb, dictGet_dictSet_self]
      · rw [if_neg (fun hc : x = a ∧ y = b => hyb hc.2)]
        rw [dictGet_dictSet_ne _ _ _ _ (fun hh : b = y => hyb hh.symm)]
        rw [hxa]
    · rw [if_neg hxa, if_neg (fun hc : x = a ∧ y = b => hxa hc.1)]

theorem hasKey_symPair (g : AdjList) (a b : String) (w : Weight) (z : String) :
    hasKey (setEdge (ensureKey (setEdge (ensureKey g a) a b w) b) b a w) z =
      (hasKey g z || z == a || z == b) := by
  rw [hasKey_setEdge, hasKey_ensureKey, hasKey_setEdge, hasKey_ensureKey]

/-- `EdgeSymm` survives one symmetric-pair write. -/
theorem edgeSymm_symPair {g : AdjList} (a b : String) (w : Weight)
    (hg : EdgeSymm g) :
    EdgeSymm (setEdge (ensureKey (setEdge (ensureKey g a) a b w) b) b a w) := by
  intro x y v h
  rw [edgeWeight_symPair] at h
  rw [edgeWeight_symPair]
  by_cases h1 : x = b ∧ y = a
  · rw [if_pos h1] at h
    by_cases hmb : y = b ∧ x = a
    · rw [if_pos hmb]
      exact h
    · rw [if_neg hmb, if_pos (⟨h1.2, h1.1⟩ : y = a ∧ x = b)]
      exact h
  · rw [if_neg h1] at h
    by_cases h2 : x = a ∧ y = b
    · rw [if_pos h2] at h
      rw [if_pos (⟨h2.2, h2.1⟩ : y = b ∧ x = a)]
      exact h
    · rw [if_neg h2] at h
      have hmirror := hg x y v h
      rw [if_neg (fun hc : y = b ∧ x = a => h2 ⟨hc.2, hc.1⟩),
        if_neg (fun hc : y = a ∧ x = b => h1 ⟨hc.2, hc.1⟩)]
      exact hmirror

/-- `NbrClosed` survives one symmetric-pair write. -/
theorem nbrClosed_symPair {g : AdjList} (a b : String) (w : Weight)
    (hg : NbrClosed g) :
    NbrClosed (setEdge (ensureKey (setEdge (ensureKey g a) a b w) b) b a w) := by
  intro x y h
  unfold adj at h
  rw [edgeWeight_symPair] at h
  rw [hasKey_symPair]
  by_cases h1 : x = b ∧ y = a
  · simp [h1.2]
  · rw [if_neg h1] at h
    by_cases h2 : x = a ∧ y = b
    · simp [h2.2]
    · rw [if_neg h2] at h
      have := hg x y h
      simp [this]

theorem edgeSymm_ensureKey {g : AdjList} (s : String) (hg : EdgeSymm g) :
    EdgeSymm (ensureKey g s) := by
  intro x y v h
  rw [edgeWeight?, neighbors_ensureKey] at h
  rw [edgeWeight?, neighbors_ensureKey]
  exact hg x y v h

theorem nbrClosed_ensureKey {g : AdjList} (s : String) (hg : NbrClosed g) :
    NbrClosed (ensureKey g s) := by
  intro x y h
  rw [adj, edgeWeight?, neighbors_ensureKey] at h
  rw [hasKey_ensureKey]
  simp [hg x y h]

/-- Invariants through one record's neighbor loop. -/
theorem addRecordEdges_inv (st : String) (nbrs : List String) :
    ∀ g : AdjList, hasKey g st = true → EdgeSymm g → NbrClosed g →
      hasKey (addRecordEdges st g nbrs) st = true ∧
        EdgeSymm (addRecordEdges st g nbrs) ∧
        NbrClosed (addRecordEdges st g nbrs) := by
  induction nbrs with
  | nil => intro g hst hs hc; exact ⟨hst, hs, hc⟩
  | cons nb rest ih =>
    intro g hst hs hc
    simp only [addRecordEdges]
    have hg : ensureKey g st = g := ensureKey_of_hasKey hst
    have hstep :
        setEdge (ensureKey (setEdge g st nb 1) nb) nb st 1 =
          setEdge (ensureKey (setEdge (ensureKey g st) st nb 1) nb) nb st 1 := by
      rw [hg]
    refine ih _ ?_ ?_ ?_
    · rw [hstep, hasKey_symPair, hst]; rfl
    · rw [hstep]; exact edgeSymm_symPair st nb 1 hs
    · rw [hstep]; exact nbrClosed_symPair st nb 1 hc

/-- `build_metro_graph` keeps symmetry and neighbor-closure from the empty
graph up. -/
theorem build_metro_graph_inv (dataset : List StationRecord) :
    EdgeSymm (build_metro_graph dataset) ∧ NbrClosed (build_metro_graph dataset) := by
  unfold build_metro_graph
  suffices h : ∀ g : AdjList, EdgeSymm g → NbrClosed g →
      EdgeSymm (dataset.foldl (fun g r => addRecordEdges r.name (ensureKey g r.name) r.nbrs) g) ∧
        NbrClosed (dataset.foldl (fun g r => addRecordEdges r.name (ensureKey g r.name) r.nbrs) g) by
    apply h
    · intro x y v hxy
      simp [edgeWeight?, neighbors, dictGet] at hxy
    · intro x y hxy
      simp [adj, edgeWeight?, neighbors, dictGet] at hxy
  induction dataset with
  | nil => intro g hs hc; exact ⟨hs, hc⟩
  | cons r rest ih =>
    intro g hs hc
    simp only [List.foldl_cons]
    have hkey : hasKey (ensureKey g r.name) r.name = true := by
      simp [hasKey_ensureKey]
    obtain ⟨_, hs', hc'⟩ := addRecordEdges_inv r.name r.nbrs (ensureKey g r.name)
      hkey (edgeSymm_ensureKey _ hs) (nbrClosed_ensureKey _ hc)
    exact ih _ hs' hc'

/-- C6: both graph builders record symmetric edges with equal weights:
`build_metro_graph` always, and `_add_edge` preserves symmetry of the loader's
graph on every call. -/
theorem C6_builder_symmetry (dataset : List StationRecord)
    (dist : String → String → Weight) (hasStation hasCoords : String → Bool)
    (g : AdjList) (a b : String) (hg : EdgeSymm g) :
    EdgeSymm (build_metro_graph dataset) ∧
      EdgeSymm (add_edge dist hasStation hasCoords g a b) := by
  refine ⟨(build_metro_graph_inv dataset).1, ?_⟩
  unfold add_edge
  split
  · exact hg
  · exact edgeSymm_symPair a b _ hg

theorem C6_builder_symmetry_witness :
    EdgeSymm (build_metro_graph [⟨"S1", "L1", ["S2"]⟩, ⟨"S2", "L1", ["S1"]⟩]) ∧
      EdgeSymm (add_edge (fun _ _ => 2) (fun _ => true) (fun _ => true) [] "S1" "S2") :=
  C6_builder_symmetry _ _ _ _ [] "S1" "S2"
    (fun x y v h => by simp [edgeWeight?, neighbors, dictGet] at h)

/-! ## Claim C3 — route segmentation -/

theorem indexOf_getD (p : List String) (hnd : p.Nodup) (i : ℕ) (hi : i < p.length) :
    p.indexOf (p.getD i "") = i := by
  induction p generalizing i with
  | nil => simp at hi
  | cons a t ih =>
    cases i with
    | zero => simp [List.indexOf_cons_self]
    | succ n =>
      have hn : n < t.length := by simpa using hi
      have hmem : t.getD n "" ∈ t := by
        rw [List.getD_eq_getElem _ _ hn]
        exact List.getElem_mem hn
      have hne : a ≠ t.getD n "" := fun h => (List.nodup_cons.mp hnd).1 (h ▸ hmem)
      rw [List.getD_cons_succ]
      rw [List.indexOf_cons_ne _ (by simpa using hne)]
      rw [ih (List.nodup_cons.mp hnd).2 n hn]

theorem lineSeq_length (lk : LineLookup) (p : List String) :
    (lineSeq lk p).length = p.length - 1 := by
  unfold lineSeq
  simp [List.length_zip]

theorem lineSeq_getD (lk : LineLookup) (p : List String) (i : ℕ)
    (hi : i + 1 < p.length) :
    (lineSeq lk p).getD i "" =
      get_connecting_line lk (p.getD i "") (p.getD (i + 1) "") := by
  unfold lineSeq
  have hit : i < p.tail.length := by
    rw [List.length_tail]; omega
  have hip : i < p.length := by omega
  have hiz : i < (p.zip p.tail).length := by
    rw [List.length_zip]; omega
  rw [List.getD_eq_getElem _ _ (by simpa using hiz)]
  rw [List.getElem_map, List.getElem_zip]
  rw [List.getD_eq_getElem _ _ hip, List.getD_eq_getElem _ _ hi]
  congr 1
  rw [List.getElem_tail]

theorem countChanges_short (l : List String) (h : l.length ≤ 1) :
    countChanges l = 0 := by
  match l, h with
  | [], _ => rfl
  | [a], _ => rfl

theorem countChanges_cons2 (a b : String) (rest : List String) :
    countChanges (a :: b :: rest) =
      (if a = b then 0 else 1) + countChanges (b :: rest) := rfl

theorem countChanges_drop (l : List String) (i : ℕ) (hi : i + 1 < l.length) :
    countChanges (l.drop i) =
      (if l.getD i "" = l.getD (i + 1) "" then 0 else 1) +
        countChanges (l.drop (i + 1)) := by
  have h1 : l.drop i = l.getD i "" :: l.drop (i + 1) := by
    rw [List.getD_eq_getElem _ _ (by omega)]
    exact List.drop_eq_getElem_cons (by omega)
  have h2 : l.drop (i + 1) = l.getD (i + 1) "" :: l.drop (i + 2) := by
    rw [List.getD_eq_getElem _ _ hi]
    exact List.drop_eq_getElem_cons hi
  rw [h1, h2, countChanges_cons2, ← h2]

/-- Loop invariant of `format_route_details`' index loop: processing indices
`j, …, len-2` from a state that covers `p[0..k]` yields a state covering
`p[0..k']` with one segment per line change. -/
theorem frdGo_spec (lk : LineLookup) (p : List String) (hnd : p.Nodup)
    (hlen : 2 ≤ p.length) :
    ∀ (m j : ℕ) (st cl : String) (steps : List RouteStep) (k : ℕ),
      1 ≤ j → j + m = p.length - 1 → k ≤ j - 1 →
      st = p.getD k "" →
      cl = (lineSeq lk p).getD (j - 1) "" →
      (steps = [] → k = 0) →
      (steps ≠ [] →
        steps.head?.map (fun s => s.startS) = some (p.getD 0 "") ∧
          steps.getLast?.map (fun s => s.endS) = some (p.getD k "")) →
      List.Chain' (fun s t => s.endS = t.startS) steps →
      (steps.map (fun s => s.stops)).sum = (k : ℤ) →
      ∃ (st' cl' : String) (steps' : List RouteStep) (k' : ℕ),
        frdGo lk p (List.range' j m) (st, cl, steps) = (st', cl', steps') ∧
        k' ≤ p.length - 2 ∧
        st' = p.getD k' "" ∧
        cl' = (lineSeq lk p).getD (p.length - 2) "" ∧
        (steps' = [] → k' = 0) ∧
        (steps' ≠ [] →
          steps'.head?.map (fun s => s.startS) = some (p.getD 0 "") ∧
            steps'.getLast?.map (fun s => s.endS) = some (p.getD k' "")) ∧
        List.Chain' (fun s t => s.endS = t.startS) steps' ∧
        (steps'.map (fun s => s.stops)).sum = (k' : ℤ) ∧
        steps'.length = steps.length + countChanges ((lineSeq lk p).drop (j - 1)) := by
  intro m
  induction m with
  | zero =>
    intro j st cl steps k hj1 hjm hk hst hcl h0 hne CH SUM
    refine ⟨st, cl, steps, k, rfl, by omega, hst, ?_, h0, hne, CH, SUM, ?_⟩
    · rw [hcl]
      congr 1
      omega
    · have hshort : ((lineSeq lk p).drop (j - 1)).length ≤ 1 := by
        rw [List.length_drop, lineSeq_length]
        omega
      rw [countChanges_short _ hshort]
      simp
  | succ m ih =>
    intro j st cl steps k hj1 hjm hk hst hcl h0 hne CH SUM
    rw [List.range'_succ]
    have hjlen : j + 1 < p.length := by omega
    have hkp : k < p.length := by omega
    have hseq : j - 1 + 1 = j := by omega
    have hseqlt : j - 1 + 1 < (lineSeq lk p).length := by
      rw [lineSeq_length]
      omega
    have hLj : (lineSeq lk p).getD j "" =
        get_connecting_line lk (p.getD j "") (p.getD (j + 1) "") :=
      lineSeq_getD lk p j hjlen
    simp only [frdGo]
    by_cases hchg : get_connecting_line lk (p.getD j "") (p.getD (j + 1) "") = cl
    · rw [if_neg (not_not_intro hchg)]
      have hcl' : cl = (lineSeq lk p).getD (j + 1 - 1) "" := by
        simpa using hchg.symm.trans hLj.symm
      obtain ⟨st', cl', steps', k', heq, h1, h2, h3, h4, h5, h6, h7, h8⟩ :=
        ih (j + 1) st cl steps k (by omega) (by omega) (by omega) hst hcl' h0 hne CH SUM
      refine ⟨st', cl', steps', k', heq, h1, h2, h3, h4, h5, h6, h7, ?_⟩
      rw [h8]
      have hdrop := countChanges_drop (lineSeq lk p) (j - 1) hseqlt
      rw [hseq] at hdrop
      have hifc : (lineSeq lk p).getD (j - 1) "" = (lineSeq lk p).getD j "" := by
        rw [← hcl, hLj]
        exact hchg.symm
      rw [hdrop, if_pos hifc]
      simp
    · rw [if_pos hchg]
      have hidx1 : p.indexOf (p.getD j "") = j := indexOf_getD p hnd j (by omega)
      have hidx2 : p.indexOf st = k := hst ▸ indexOf_getD p hnd k hkp
      have hgl : (lineSeq lk p).getD (j + 1 - 1) "" =
          get_connecting_line lk (p.getD j "") (p.getD (j + 1) "") := by
        simpa using hLj
      have hne' : steps ++ [(⟨st, p.getD j "", cl,
          (p.indexOf (p.getD j "") : ℤ) - (p.indexOf st : ℤ)⟩ : RouteStep)] ≠ [] →
          (steps ++ [(⟨st, p.getD j "", cl,
            (p.indexOf (p.getD j "") : ℤ) - (p.indexOf st : ℤ)⟩ : RouteStep)]).head?.map
              (fun s => s.startS) = some (p.getD 0 "") ∧
            (steps ++ [(⟨st, p.getD j "", cl,
              (p.indexOf (p.getD j "") : ℤ) - (p.indexOf st : ℤ)⟩ : RouteStep)]).getLast?.map
              (fun s => s.endS) = some (p.getD j "") := by
        intro _
        constructor
        · cases steps with
          | nil =>
            rw [hst, h0 rfl]
            rfl
          | cons s rest =>
            simpa using (hne (by simp)).1
        · rw [List.getLast?_concat]
          rfl
      have hch' : List.Chain' (fun s t => s.endS = t.startS)
          (steps ++ [(⟨st, p.getD j "", cl,
            (p.indexOf (p.getD j "") : ℤ) - (p.indexOf st : ℤ)⟩ : RouteStep)]) := by
        rw [List.chain'_append]
        refine ⟨CH, List.chain'_singleton _, ?_⟩
        intro x hx y hy
        simp only [List.head?_cons, Option.mem_def, Option.some_inj] at hy
        subst hy
        cases steps with
        | nil => simp at hx
        | cons s rest =>
          have hlast := (hne (by simp)).2
          rw [Option.mem_def] at hx
          rw [hx] at hlast
          simp only [Option.map_some', Option.some_inj] at hlast
          simpa [hst] using hlast
      have hsum' : ((steps ++ [(⟨st, p.getD j "", cl,
          (p.indexOf (p.getD j "") : ℤ) - (p.indexOf st : ℤ)⟩ : RouteStep)]).map
            (fun s => s.stops)).sum = (j : ℤ) := by
        rw [List.map_append, List.sum_append, SUM]
        simp only [List.map_cons, List.map_nil, List.sum_cons, List.sum_nil, hidx1, hidx2]
        omega
      obtain ⟨st', cl', steps', k', heq, h1, h2, h3, h4, h5, h6, h7, h8⟩ :=
        ih (j + 1) (p.getD j "")
          (get_connecting_line lk (p.getD j "") (p.getD (j + 1) ""))
          (steps ++ [⟨st, p.getD j "", cl,
            (p.indexOf (p.getD j "") : ℤ) - (p.indexOf st : ℤ)⟩]) j
          (by omega) (by omega) (by omega) rfl hgl.symm
          (by simp) hne' hch' hsum'
      refine ⟨st', cl', steps', k', heq, h1, h2, h3, h4, h5, h6, h7, ?_⟩
      have hJ1 : j + 1 - 1 = j := by omega
      rw [hJ1] at h8
      rw [h8]
      have hdrop := countChanges_drop (lineSeq lk p) (j - 1) hseqlt
      rw [hseq] at hdrop
      have hnec : ¬ ((lineSeq lk p).getD (j - 1) "" = (lineSeq lk p).getD j "") := by
        rw [← hcl, hLj]
        exact fun hc => hchg hc.symm
      rw [hdrop, if_neg hnec]
      rw [List.length_append]
      simp only [List.length_singleton]
      omega

/-- C3: on a duplicate-free path of length ≥ 2 whose consecutive pairs are
edges, the segments returned by `format_route_details` cover the path with no
gaps or overlaps: first start `p[0]`, last end `p[-1]`, consecutive segments
share their boundary vertex, the stop counts sum to `len(p) - 1`, and the
segment count exceeds the number of line changes by one. -/
theorem C3_segments_cover_path (g : AdjList) (lk : LineLookup) (p : List String)
    (hnd : p.Nodup) (hlen : 2 ≤ p.length) (hchain : List.Chain' (adj g) p) :
    (format_route_details lk p).head?.map (fun s => s.startS) = p.head? ∧
      (format_route_details lk p).getLast?.map (fun s => s.endS) = p.getLast? ∧
      List.Chain' (fun s t => s.endS = t.startS) (format_route_details lk p) ∧
      ((format_route_details lk p).map (fun s => s.stops)).sum = (p.length : ℤ) - 1 ∧
      (format_route_details lk p).length = countChanges (lineSeq lk p) + 1 := by
  have hcl0 : get_connecting_line lk (p.getD 0 "") (p.getD 1 "") =
      (lineSeq lk p).getD (1 - 1) "" := by
    simpa using (lineSeq_getD lk p 0 (by omega)).symm
  obtain ⟨st', cl', steps', k', heq, h1, h2, h3, h4, h5, h6, h7, h8⟩ :=
    frdGo_spec lk p hnd hlen (p.length - 2) 1
      (p.getD 0 "") (get_connecting_line lk (p.getD 0 "") (p.getD 1 "")) [] 0
      le_rfl (by omega) le_rfl rfl hcl0 (fun _ => rfl) (fun hc => absurd rfl hc)
      List.chain'_nil rfl
  have hk'len : k' < p.length := by omega
  have hidx : p.indexOf st' = k' := h2 ▸ indexOf_getD p hnd k' hk'len
  unfold format_route_details
  rw [if_neg (by omega)]
  simp only [heq, hidx]
  have hplast : p.getLast? = some (p.getLastD "") := by
    cases p with
    | nil => simp at hlen
    | cons a t =>
      rw [List.getLastD_eq_getLast?]
      cases hgl : (a :: t).getLast? with
      | none => simp at hgl
      | some x => rfl
  have hphead : p.head? = some (p.getD 0 "") := by
    cases p with
    | nil => simp at hlen
    | cons a t => rfl
  refine ⟨?_, ?_, ?_, ?_, ?_⟩
  · cases steps' with
    | nil =>
      simp only [List.nil_append, List.head?_cons, Option.map_some']
      rw [h2, h4 rfl, hphead]
    | cons s rest =>
      rw [List.cons_append, List.head?_cons, Option.map_some']
      have := (h5 (by simp)).1
      rw [List.head?_cons, Option.map_some'] at this
      rw [this, hphead]
  · rw [List.getLast?_concat, hplast]
    rfl
  · rw [List.chain'_append]
    refine ⟨h6, List.chain'_singleton _, ?_⟩
    intro x hx y hy
    simp only [List.head?_cons, Option.mem_def, Option.some_inj] at hy
    subst hy
    cases steps' with
    | nil => simp at hx
    | cons s rest =>
      have hlast := (h5 (by simp)).2
      rw [Option.mem_def] at hx
      rw [hx] at hlast
      simp only [Option.map_some', Option.some_inj] at hlast
      simpa [h2] using hlast
  · rw [List.map_append, List.sum_append, h7]
    simp only [List.map_cons, List.map_nil, List.sum_cons, List.sum_nil]
    omega
  · rw [List.length_append, List.length_singleton, h8]
    simp

theorem C3_segments_cover_path_witness :
    (format_route_details [] ["S1", "S2"]).head?.map (fun s => s.startS) =
        (["S1", "S2"] : List String).head? ∧
      (format_route_details [] ["S1", "S2"]).getLast?.map (fun s => s.endS) =
        (["S1", "S2"] : List String).getLast? ∧
      List.Chain' (fun s t => s.endS = t.startS)
        (format_route_details [] ["S1", "S2"]) ∧
      ((format_route_details [] ["S1", "S2"]).map (fun s => s.stops)).sum =
        (((["S1", "S2"] : List String)).length : ℤ) - 1 ∧
      (format_route_details [] ["S1", "S2"]).length =
        countChanges (lineSeq [] ["S1", "S2"]) + 1 :=
  C3_segments_cover_path gS12 [] ["S1", "S2"] (by decide) (by decide)
    (List.chain'_cons.mpr ⟨by decide, List.chain'_singleton _⟩)

/-! ## Claim C9 — reachability is symmetric on built graphs -/

theorem dictGet_isSome_iff_mem_map_fst {β : Type} (d : List (String × β)) (k : String) :
    (dictGet d k).isSome = true ↔ k ∈ d.map Prod.fst := by
  induction d with
  | nil => simp [dictGet]
  | cons p rest ih =>
    obtain ⟨a, b⟩ := p
    by_cases h : a = k
    · subst h
      simp [dictGet]
    · simp only [dictGet, if_neg h, List.map_cons, List.mem_cons]
      rw [ih]
      constructor
      · exact fun hm => Or.inr hm
      · rintro (hk | hm)
        · exact absurd hk.symm h
        · exact hm

theorem dictGet_eq_some_mem {β : Type} {d : List (String × β)} {k : String} {v : β}
    (h : dictGet d k = some v) : (k, v) ∈ d := by
  induction d with
  | nil => simp [dictGet] at h
  | cons p rest ih =>
    obtain ⟨a, b⟩ := p
    by_cases ha : a = k
    · subst ha
      simp [dictGet] at h
      simp [h]
    · simp only [dictGet, if_neg ha] at h
      simp [ih h]

theorem mem_allNbrs {g : AdjList} {v n : String}
    (h : n ∈ (neighbors g v).map Prod.fst) : n ∈ allNbrs g := by
  unfold neighbors at h
  cases hv : dictGet g v with
  | none => rw [hv] at h; simp at h
  | some nbrs =>
    rw [hv] at h
    simp only [Option.getD_some] at h
    have hmem : (v, nbrs) ∈ g := dictGet_eq_some_mem hv
    unfold allNbrs
    rw [List.mem_flatten]
    exact ⟨nbrs.map Prod.fst, List.mem_map_of_mem _ hmem, h⟩

theorem adj_iff_mem_map_fst (g : AdjList) (a b : String) :
    adj g a b ↔ b ∈ (neighbors g a).map Prod.fst := by
  unfold adj edgeWeight?
  exact dictGet_isSome_iff_mem_map_fst _ _

/-- A path yields closure membership. -/
theorem reach_of_isPath {g : AdjList} {a b : String} {p : List String}
    (h : IsPath g a b p) : reach g a b := by
  induction p generalizing a with
  | nil => exact absurd rfl h.1
  | cons x rest ih =>
    obtain ⟨hne, hhd, hlast, hchain⟩ := h
    simp only [List.head?_cons, Option.some_inj] at hhd
    subst hhd
    cases rest with
    | nil =>
      simp only [List.getLast?_singleton, Option.some_inj] at hlast
      subst hlast
      exact Relation.ReflTransGen.refl
    | cons y rest' =>
      rw [List.chain'_cons] at hchain
      have hrest : IsPath g y b (y :: rest') := by
        refine ⟨by simp, rfl, ?_, hchain.2⟩
        simpa [List.getLast?_cons_cons] using hlast
      exact Relation.ReflTransGen.head hchain.1 (ih hrest)

/-- Closure membership yields a path. -/
theorem isPath_of_reach {g : AdjList} {a b : String} (h : reach g a b) :
    Reachable g a b := by
  induction h with
  | refl => exact reachable_refl g a
  | tail _ hadj ih =>
    obtain ⟨p, hp⟩ := ih
    exact ⟨p ++ [_], hp.snoc hadj⟩

theorem reach_iff_reachable (g : AdjList) (a b : String) :
    reach g a b ↔ Reachable g a b :=
  ⟨isPath_of_reach, fun ⟨_, hp⟩ => reach_of_isPath hp⟩

/-- On a symmetric graph the closure is symmetric. -/
theorem reach_symm {g : AdjList} (hs : EdgeSymm g) {a b : String}
    (h : reach g a b) : reach g b a := by
  induction h with
  | refl => exact Relation.ReflTransGen.refl
  | tail _ hadj ih =>
    refine Relation.ReflTransGen.head ?_ ih
    unfold adj at hadj ⊢
    obtain ⟨w, hw⟩ := Option.isSome_iff_exists.mp hadj
    rw [hs _ _ w hw]
    rfl

/-- On a neighbor-closed graph, everything reachable from a key is a key. -/
theorem reach_hasKey {g : AdjList} (hc : NbrClosed g) {a z : String}
    (ha : hasKey g a = true) (h : reach g a z) : hasKey g z = true := by
  induction h with
  | refl => exact ha
  | tail _ hadj ih => exact hc _ _ hadj

/-- Bookkeeping of one neighbor sweep of `get_connected_component`. -/
theorem gccStep_spec (nbrs : List (String × Weight)) :
    ∀ (visited queue : List String),
      (∀ x ∈ visited, x ∈ (gccStep visited queue nbrs).1) ∧
      (∀ x ∈ (gccStep visited queue nbrs).1, x ∈ visited ∨ x ∈ nbrs.map Prod.fst) ∧
      (∀ n ∈ nbrs.map Prod.fst, n ∈ (gccStep visited queue nbrs).1) ∧
      (∀ x ∈ (gccStep visited queue nbrs).2, x ∈ queue ∨ x ∈ (gccStep visited queue nbrs).1) ∧
      (∀ x ∈ queue, x ∈ (gccStep visited queue nbrs).2) ∧
      (∀ x ∈ (gccStep visited queue nbrs).1, x ∈ visited ∨ x ∈ (gccStep visited queue nbrs).2) := by
  induction nbrs with
  | nil =>
    intro visited queue
    exact ⟨fun x hx => hx, fun x hx => Or.inl hx, by simp,
      fun x hx => Or.inl hx, fun x hx => hx, fun x hx => Or.inl hx⟩
  | cons p rest ih =>
    intro visited queue
    obtain ⟨n, w⟩ := p
    by_cases hn : n ∈ visited
    · simp only [gccStep, if_pos hn]
      obtain ⟨i1, i2, i3, i4, i5, i6⟩ := ih visited queue
      refine ⟨i1, ?_, ?_, i4, i5, i6⟩
      · intro x hx
        rcases i2 x hx with h | h
        · exact Or.inl h
        · exact Or.inr (by simp [h])
      · intro m hm
        simp only [List.map_cons, List.mem_cons] at hm
        rcases hm with hm | hm
        · subst hm; exact i1 _ hn
        · exact i3 _ hm
    · simp only [gccStep, if_neg hn]
      obtain ⟨i1, i2, i3, i4, i5, i6⟩ := ih (n :: visited) (queue ++ [n])
      refine ⟨?_, ?_, ?_, ?_, ?_, ?_⟩
      · intro x hx
        exact i1 x (by simp [hx])
      · intro x hx
        rcases i2 x hx with h | h
        · rcases List.mem_cons.mp h with h' | h'
          · exact Or.inr (by simp [h'])
          · exact Or.inl h'
        · exact Or.inr (by simp [h])
      · intro m hm
        simp only [List.map_cons, List.mem_cons] at hm
        rcases hm with hm | hm
        · subst hm; exact i1 _ (by simp)
        · exact i3 _ hm
      · intro x hx
        rcases i4 x hx with h | h
        · rcases List.mem_append.mp h with h' | h'
          · exact Or.inl h'
          · simp only [List.mem_singleton] at h'
            subst h'
            exact Or.inr (i1 _ (by simp))
        · exact Or.inr h
      · intro x hx
        exact i5 x (by simp [hx])
      · intro x hx
        rcases i6 x hx with h | h
        · rcases List.mem_cons.mp h with h' | h'
          · subst h'
            exact Or.inr (i5 _ (by simp))
          · exact Or.inl h'
        · exact Or.inr h

/-- Each processed neighbor that is fresh moves one element from the
unvisited pool into the queue: the loop potential never grows. -/
theorem gccStep_potential (S : Finset String) (nbrs : List (String × Weight))
    (hsub : ∀ n ∈ nbrs.map Prod.fst, n ∈ S) :
    ∀ (visited queue : List String),
      (gccStep visited queue nbrs).2.length +
        (S.filter (fun n => n ∉ (gccStep visited queue nbrs).1)).card ≤
      queue.length + (S.filter (fun n => n ∉ visited)).card := by
  induction nbrs with
  | nil => intro visited queue; simp [gccStep]
  | cons p rest ih =>
    intro visited queue
    obtain ⟨n, w⟩ := p
    have hsub' : ∀ m ∈ rest.map Prod.fst, m ∈ S := fun m hm => hsub m (by simp [hm])
    by_cases hn : n ∈ visited
    · simp only [gccStep, if_pos hn]
      exact ih hsub' visited queue
    · simp only [gccStep, if_neg hn]
      refine le_trans (ih hsub' (n :: visited) (queue ++ [n])) ?_
      rw [List.length_append, List.length_singleton]
      have hcard : (S.filter (fun m => m ∉ n :: visited)).card <
          (S.filter (fun m => m ∉ visited)).card := by
        have hnn : n ∈ S.filter (fun m => m ∉ visited) := by
          simp only [Finset.mem_filter]
          exact ⟨hsub n (by simp), hn⟩
        have hss : S.filter (fun m => m ∉ n :: visited) ⊆
            (S.filter (fun m => m ∉ visited)).erase n := by
          intro x hx
          simp only [Finset.mem_filter, List.mem_cons, not_or] at hx
          rw [Finset.mem_erase, Finset.mem_filter]
          exact ⟨hx.2.1, hx.1, hx.2.2⟩
        exact lt_of_le_of_lt (Finset.card_le_card hss)
          (Finset.card_erase_lt_of_mem hnn)
      omega

/-- With the stated fuel the component loop cannot exhaust. -/
theorem gccLoop_ne_none (g : AdjList) :
    ∀ (fuel : ℕ) (visited queue : List String),
      queue.length + ((allNbrs g).toFinset.filter (fun n => n ∉ visited)).card < fuel →
      gccLoop g fuel visited queue ≠ none := by
  intro fuel
  induction fuel with
  | zero => intro _ _ h; omega
  | succ f ih =>
    intro visited queue hΦ
    cases queue with
    | nil => simp [gccLoop]
    | cons node rest =>
      simp only [gccLoop]
      apply ih
      have hsub : ∀ n ∈ (neighbors g node).map Prod.fst, n ∈ (allNbrs g).toFinset :=
        fun n hn => List.mem_toFinset.mpr (mem_allNbrs hn)
      have := gccStep_potential (allNbrs g).toFinset (neighbors g node) hsub visited rest
      simp only [List.length_cons] at hΦ
      omega

/-- Worklist invariant of the component loop: on normal return the visited
set is sound for reachability, contains the start, and is adjacency-closed. -/
theorem gccLoop_correct (g : AdjList) (start : String) :
    ∀ (fuel : ℕ) (visited queue vs : List String),
      (∀ x ∈ queue, x ∈ visited) →
      (∀ x ∈ visited, reach g start x) →
      start ∈ visited →
      (∀ x ∈ visited, x ∈ queue ∨ ∀ y, adj g x y → y ∈ visited) →
      gccLoop g fuel visited queue = some vs →
      (∀ x ∈ vs, reach g start x) ∧ start ∈ vs ∧
        (∀ x ∈ vs, ∀ y, adj g x y → y ∈ vs) := by
  intro fuel
  induction fuel with
  | zero => intro _ _ _ _ _ _ _ heq; simp [gccLoop] at heq
  | succ f ih =>
    intro visited queue vs hqv hreach hstart hfront heq
    cases queue with
    | nil =>
      simp only [gccLoop, Option.some_inj] at heq
      subst heq
      refine ⟨hreach, hstart, ?_⟩
      intro x hx y hy
      rcases hfront x hx with h | h
      · simp at h
      · exact h y hy
    | cons node rest =>
      simp only [gccLoop] at heq
      obtain ⟨s1, s2, s3, s4, s5, s6⟩ := gccStep_spec (neighbors g node) visited rest
      have hnodev : node ∈ visited := hqv node (by simp)
      refine ih _ _ _ ?_ ?_ ?_ ?_ heq
      · intro x hx
        rcases s4 x hx with h | h
        · exact s1 x (hqv x (by simp [h]))
        · exact h
      · intro x hx
        rcases s2 x hx with h | h
        · exact hreach x h
        · refine Relation.ReflTransGen.tail (hreach node hnodev) ?_
          exact (adj_iff_mem_map_fst g node x).mpr h
      · exact s1 start hstart
      · intro x hx
        rcases s2 x hx with hxv | hxn
        · rcases hfront x hxv with hq | hcl
          · rcases List.mem_cons.mp hq with hq | hq
            · subst hq
              right
              intro y hy
              exact s3 y ((adj_iff_mem_map_fst g x y).mp hy)
            · exact Or.inl (s5 x hq)
          · right
            intro y hy
            exact s1 y (hcl y hy)
        · rcases s6 x hx with hxv | hxq
          · rcases hfront x hxv with hq | hcl
            · rcases List.mem_cons.mp hq with hq | hq
              · subst hq
                right
                intro y hy
                exact s3 y ((adj_iff_mem_map_fst g x y).mp hy)
              · exact Or.inl (s5 x hq)
            · right
              intro y hy
              exact s1 y (hcl y hy)
          · exact Or.inl hxq

/-- `get_connected_component` of a present start vertex computes exactly the
reachable set. -/
theorem get_connected_component_spec (g : AdjList) (start : String)
    (hk : hasKey g start = true) :
    ∃ vs, get_connected_component g start = some vs ∧
      ∀ z, z ∈ vs ↔ reach g start z := by
  unfold get_connected_component
  rw [if_neg (by simp [hk])]
  have hΦ : ([start] : List String).length +
      ((allNbrs g).toFinset.filter (fun n => n ∉ ([start] : List String))).card <
        gccFuel g := by
    have h1 : ((allNbrs g).toFinset.filter (fun n => n ∉ ([start] : List String))).card ≤
        (allNbrs g).toFinset.card := Finset.card_filter_le _ _
    have h2 : (allNbrs g).toFinset.card ≤ (allNbrs g).length := (allNbrs g).toFinset_card_le
    have h3 : (allNbrs g).length = totalNbrLen g := by
      unfold allNbrs totalNbrLen
      rw [List.length_flatten, List.map_map]
      have hfe : (List.length ∘ fun e : String × List (String × Weight) =>
          List.map Prod.fst e.2) = fun e => e.2.length := by
        funext e
        simp
      rw [hfe]
    unfold gccFuel
    simp only [List.length_singleton]
    omega
  cases heq : gccLoop g (gccFuel g) [start] [start] with
  | none => exact absurd heq (gccLoop_ne_none g (gccFuel g) [start] [start] hΦ)
  | some vs =>
    have hc := gccLoop_correct g start (gccFuel g) [start] [start] vs
      (by simp) (by intro x hx; simp at hx; subst hx; exact Relation.ReflTransGen.refl)
      (by simp) (by intro x hx; simp at hx; subst hx; simp) heq
    refine ⟨vs, rfl, ?_⟩
    intro z
    constructor
    · exact fun hz => hc.1 z hz
    · intro hz
      induction hz with
      | refl => exact hc.2.1
      | tail hr hadj ihz => exact hc.2.2 _ ihz _ hadj

/-- C9: `is_reachable` is symmetric on every graph built by
`build_metro_graph`, for arbitrary station names. -/
theorem C9_is_reachable_symm (dataset : List StationRecord) (a b : String) :
    is_reachable (build_metro_graph dataset) a b =
      is_reachable (build_metro_graph dataset) b a := by
  obtain ⟨hsym, hclosed⟩ := build_metro_graph_inv dataset
  set G := build_metro_graph dataset with hG
  have hdir : ∀ x y : String, hasKey G x = true →
      is_reachable G x y = true → reach G x y := by
    intro x y hx hr
    unfold is_reachable at hr
    obtain ⟨vs, hvs, hiff⟩ := get_connected_component_spec G x hx
    rw [hvs] at hr
    exact (hiff y).mp (List.mem_of_elem_eq_true hr)
  have hmk : ∀ x y : String, hasKey G x = true → reach G x y →
      is_reachable G x y = true := by
    intro x y hx hr
    unfold is_reachable
    obtain ⟨vs, hvs, hiff⟩ := get_connected_component_spec G x hx
    rw [hvs]
    exact List.elem_eq_true_of_mem ((hiff y).mpr hr)
  have hfalse : ∀ x y : String, hasKey G x = false →
      is_reachable G x y = false := by
    intro x y hx
    unfold is_reachable get_connected_component
    rw [if_pos (by simp [hx])]
    rfl
  by_cases ha : hasKey G a = true
  · by_cases hb : hasKey G b = true
    · by_cases hr : is_reachable G a b = true
      · rw [hr, hmk b a hb (reach_symm hsym (hdir a b ha hr))]
      · rw [Bool.not_eq_true] at hr
        rw [hr]
        by_cases hr' : is_reachable G b a = true
        · exact absurd (hmk a b ha (reach_symm hsym (hdir b a hb hr'))) (by simp [hr])
        · rw [Bool.not_eq_true] at hr'
          rw [hr']
    · rw [Bool.not_eq_true] at hb
      rw [hfalse b a hb]
      by_cases hr : is_reachable G a b = true
      · have := reach_hasKey hclosed ha (hdir a b ha hr)
        rw [this] at hb
        cases hb
      · rw [Bool.not_eq_true] at hr
        rw [hr]
  · rw [Bool.not_eq_true] at ha
    rw [hfalse a b ha]
    by_cases hb : hasKey G b = true
    · by_cases hr : is_reachable G b a = true
      · have := reach_hasKey hclosed hb (hdir b a hb hr)
        rw [this] at ha
        cases ha
      · rw [Bool.not_eq_true] at hr
        rw [hr]
    · rw [Bool.not_eq_true] at hb
      rw [hfalse b a hb]

/-! ## Claim C1 — BFS returns a fewest-vertex path -/

/-- Prepending a vertex with an edge to the head of a path. -/
theorem IsPath.cons {g : AdjList} {a b c : String} {p : List String}
    (h : IsPath g b c p) (hab : adj g a b) : IsPath g a c (a :: p) := by
  obtain ⟨hne, hhd, hlast, hchain⟩ := h
  cases p with
  | nil => exact absurd rfl hne
  | cons x rest =>
    simp only [List.head?_cons, Option.some_inj] at hhd
    subst hhd
    refine ⟨by simp, rfl, ?_, ?_⟩
    · simpa [List.getLast?_cons_cons] using hlast
    · rw [List.chain'_cons]
      exact ⟨hab, hchain⟩

/-- A path from inside a vertex set to outside it crosses the boundary: there
is a no-longer path to some inside vertex with an edge leaving the set. -/
theorem path_crossing {g : AdjList} {a w : String} {visited : List String}
    (ha : a ∈ visited) (hw : w ∉ visited) :
    ∀ q, IsPath g a w q →
      ∃ (q1 : List String) (u v : String), IsPath g a u q1 ∧ u ∈ visited ∧
        v ∉ visited ∧ adj g u v ∧ q1.length + 1 ≤ q.length := by
  intro q
  induction q generalizing a with
  | nil => intro hq; exact absurd rfl hq.1
  | cons x rest ih =>
    intro hq
    have hx : x = a := by
      have := hq.2.1
      simpa using this
    subst hx
    cases rest with
    | nil =>
      have : x = w := by simpa using hq.2.2.1
      subst this
      exact absurd ha hw
    | cons y rest' =>
      have hchain := hq.2.2.2
      rw [List.chain'_cons] at hchain
      have hrest : IsPath g y w (y :: rest') := by
        refine ⟨by simp, rfl, ?_, hchain.2⟩
        simpa [List.getLast?_cons_cons] using hq.2.2.1
      by_cases hy : y ∈ visited
      · obtain ⟨q1, u, v, hq1, hu, hv, huv, hlen⟩ := ih hy hrest
        refine ⟨x :: q1, u, v, hq1.cons hchain.1, hu, hv, huv, ?_⟩
        simp only [List.length_cons] at hlen ⊢
        omega
      · exact ⟨[x], x, y, isPath_singleton g x, ha, hy, hchain.1, by simp⟩

/-- Bookkeeping of one neighbor sweep of `bfs_shortest_path`. -/
theorem bfsStep_spec (goal : String) (path : List String) :
    ∀ (nbrs : List (String × Weight)) (visited : List String)
      (queue : List (List String)), goal ∉ visited →
      (∀ found, bfsStep goal path nbrs visited queue = Sum.inl found →
        found = path ++ [goal] ∧ goal ∈ nbrs.map Prod.fst) ∧
      (∀ v' q', bfsStep goal path nbrs visited queue = Sum.inr (v', q') →
        (∀ x ∈ visited, x ∈ v') ∧
        (goal ∉ v') ∧
        (∀ m ∈ nbrs.map Prod.fst, m ∈ v') ∧
        (∃ news, q' = queue ++ news ∧
          ∀ q ∈ news, ∃ x, q = path ++ [x] ∧ x ∈ nbrs.map Prod.fst ∧
            x ∉ visited ∧ x ∈ v') ∧
        (∀ x ∈ v', x ∈ visited ∨ ∃ q ∈ q', q.getLastD "" = x) ∧
        (∀ q ∈ queue, q ∈ q')) := by
  intro nbrs
  induction nbrs with
  | nil =>
    intro visited queue hgoal
    constructor
    · intro found hf
      simp [bfsStep] at hf
    · intro v' q' hf
      simp only [bfsStep, Sum.inr.injEq, Prod.mk.injEq] at hf
      obtain ⟨hv, hq⟩ := hf
      subst hv; subst hq
      exact ⟨fun x hx => hx, hgoal, by simp,
        ⟨[], by simp, by simp⟩, fun x hx => Or.inl hx, fun q hq => hq⟩
  | cons p rest ih =>
    intro visited queue hgoal
    obtain ⟨n, w⟩ := p
    by_cases hn : n ∈ visited
    · have hng : n ≠ goal := fun h => hgoal (h ▸ hn)
      constructor
      · intro found hf
        simp only [bfsStep, if_pos hn] at hf
        obtain ⟨h1, h2⟩ := (ih visited queue hgoal).1 found hf
        exact ⟨h1, by simp [h2]⟩
      · intro v' q' hf
        simp only [bfsStep, if_pos hn] at hf
        obtain ⟨i1, i2, i3, i4, i5, i6⟩ := (ih visited queue hgoal).2 v' q' hf
        obtain ⟨news, hq', hnews⟩ := i4
        refine ⟨i1, i2, ?_, ?_, i5, i6⟩
        · intro m hm
          simp only [List.map_cons, List.mem_cons] at hm
          rcases hm with hm | hm
          · subst hm; exact i1 _ hn
          · exact i3 _ hm
        · refine ⟨news, hq', ?_⟩
          intro q hq
          obtain ⟨x, a1, a2, a3, a4⟩ := hnews q hq
          exact ⟨x, a1, by simp [a2], a3, a4⟩
    · by_cases hng : n = goal
      · subst hng
        constructor
        · intro found hf
          unfold bfsStep at hf
          rw [if_neg hn, if_pos rfl] at hf
          injection hf with hf
          exact ⟨hf.symm, by simp⟩
        · intro v' q' hf
          unfold bfsStep at hf
          rw [if_neg hn, if_pos rfl] at hf
          exact absurd hf (by simp)
      · have hgoal' : goal ∉ n :: visited := by
          simp only [List.mem_cons, not_or]
          exact ⟨fun h => hng h.symm, hgoal⟩
        constructor
        · intro found hf
          simp only [bfsStep, if_neg hn, if_neg hng] at hf
          obtain ⟨h1, h2⟩ :=
            (ih (n :: visited) (queue ++ [path ++ [n]]) hgoal').1 found hf
          exact ⟨h1, by simp [h2]⟩
        · intro v' q' hf
          simp only [bfsStep, if_neg hn, if_neg hng] at hf
          obtain ⟨i1, i2, i3, i4, i5, i6⟩ :=
            (ih (n :: visited) (queue ++ [path ++ [n]]) hgoal').2 v' q' hf
          obtain ⟨news, hq', hnews⟩ := i4
          refine ⟨?_, i2, ?_, ?_, ?_, ?_⟩
          · intro x hx
            exact i1 x (by simp [hx])
          · intro m hm
            simp only [List.map_cons, List.mem_cons] at hm
            rcases hm with hm | hm
            · subst hm; exact i1 _ (by simp)
            · exact i3 _ hm
          · refine ⟨(path ++ [n]) :: news, by simp [hq'], ?_⟩
            intro q hq
            rcases List.mem_cons.mp hq with hq | hq
            · subst hq
              exact ⟨n, rfl, by simp, hn, i1 _ (by simp)⟩
            · obtain ⟨x, hx1, hx2, hx3, hx4⟩ := hnews q hq
              refine ⟨x, hx1, by simp [hx2], ?_, hx4⟩
              intro hc
              exact hx3 (by simp [hc])
          · intro x hx
            rcases i5 x hx with h | h
            · rcases List.mem_cons.mp h with h' | h'
              · subst h'
                right
                refine ⟨path ++ [x], ?_, by simp⟩
                rw [hq']
                simp
              · exact Or.inl h'
            · exact Or.inr h
          · intro q hq
            exact i6 q (by simp [hq])

/-- The loop potential never grows across one neighbor sweep. -/
theorem bfsStep_potential (S : Finset String) (goal : String) (path : List String) :
    ∀ (nbrs : List (String × Weight)) (visited : List String)
      (queue : List (List String)) (v' : List String) (q' : List (List String)),
      (∀ n ∈ nbrs.map Prod.fst, n ∈ S) →
      bfsStep goal path nbrs visited queue = Sum.inr (v', q') →
      q'.length + (S.filter (fun n => n ∉ v')).card ≤
        queue.length + (S.filter (fun n => n ∉ visited)).card := by
  intro nbrs
  induction nbrs with
  | nil =>
    intro visited queue v' q' _ hf
    simp only [bfsStep, Sum.inr.injEq, Prod.mk.injEq] at hf
    obtain ⟨hv, hq⟩ := hf
    subst hv; subst hq
    exact le_rfl
  | cons p rest ih =>
    intro visited queue v' q' hsub hf
    obtain ⟨n, w⟩ := p
    have hsub' : ∀ m ∈ rest.map Prod.fst, m ∈ S := fun m hm => hsub m (by simp [hm])
    by_cases hn : n ∈ visited
    · simp only [bfsStep, if_pos hn] at hf
      exact ih visited queue v' q' hsub' hf
    · by_cases hng : n = goal
      · subst hng
        unfold bfsStep at hf
        rw [if_neg hn, if_pos rfl] at hf
        exact absurd hf (by simp)
      · simp only [bfsStep, if_neg hn, if_neg hng] at hf
        refine le_trans (ih (n :: visited) (queue ++ [path ++ [n]]) v' q' hsub' hf) ?_
        rw [List.length_append, List.length_singleton]
        have hcard : (S.filter (fun m => m ∉ n :: visited)).card <
            (S.filter (fun m => m ∉ visited)).card := by
          have hnn : n ∈ S.filter (fun m => m ∉ visited) := by
            simp only [Finset.mem_filter]
            exact ⟨hsub n (by simp), hn⟩
          have hss : S.filter (fun m => m ∉ n :: visited) ⊆
              (S.filter (fun m => m ∉ visited)).erase n := by
            intro x hx
            simp only [Finset.mem_filter, List.mem_cons, not_or] at hx
            rw [Finset.mem_erase, Finset.mem_filter]
            exact ⟨hx.2.1, hx.1, hx.2.2⟩
          exact lt_of_le_of_lt (Finset.card_le_card hss)
            (Finset.card_erase_lt_of_mem hnn)
        omega

/-- Main loop lemma for `bfs_shortest_path`: under the breadth-first
invariants (queued paths valid and optimal to their endpoints, queue lengths
level-structured `n, …, n, n+1, …, n+1`, every vertex outside `visited` at
distance at least `n + 1`, and a worklist frontier), the loop returns a
fewest-vertex path to any reachable goal. -/
theorem bfsLoop_correct (g : AdjList) (a goal : String) :
    ∀ (fuel : ℕ) (visited : List String) (queue : List (List String)) (n j k : ℕ),
      reach g a goal →
      a ∈ visited →
      goal ∉ visited →
      queue.length + ((allNbrs g).toFinset.filter (fun x => x ∉ visited)).card < fuel →
      (∀ p ∈ queue, IsPath g a (p.getLastD "") p ∧ p.getLastD "" ∈ visited) →
      (∀ p ∈ queue, ∀ q, IsPath g a (p.getLastD "") q → p.length ≤ q.length) →
      queue.map List.length = List.replicate j n ++ List.replicate k (n + 1) →
      (queue ≠ [] → 1 ≤ j) →
      (∀ w, w ∉ visited → ∀ q, IsPath g a w q → n + 1 ≤ q.length) →
      (∀ v ∈ visited,
        (∃ p ∈ queue, p.getLastD "" = v) ∨ ∀ y, adj g v y → y ∈ visited) →
      ∃ p, bfsLoop g goal fuel visited queue = some (some p) ∧
        IsPath g a goal p ∧ ∀ q, IsPath g a goal q → p.length ≤ q.length := by
  intro fuel
  induction fuel with
  | zero => intro visited queue n j k _ _ _ hΦ _ _ _ _ _ _; omega
  | succ f ih =>
    intro visited queue n j k hreach ha hgoal hΦ hq hmin hlen hjpos hfront hwork
    cases queue with
    | nil =>
      exfalso
      have hclosed : ∀ v ∈ visited, ∀ y, adj g v y → y ∈ visited := by
        intro v hv y hy
        rcases hwork v hv with ⟨p, hp, _⟩ | h
        · simp at hp
        · exact h y hy
      have hgv : goal ∈ visited := by
        have hall : ∀ z, reach g a z → z ∈ visited := by
          intro z hz
          induction hz with
          | refl => exact ha
          | tail hr hadj ihz => exact hclosed _ ihz _ hadj
        exact hall goal hreach
      exact hgoal hgv
    | cons path rest =>
      have hj : 1 ≤ j := hjpos (by simp)
      obtain ⟨j', rfl⟩ : ∃ j', j = j' + 1 := ⟨j - 1, by omega⟩
      rw [List.replicate_succ] at hlen
      simp only [List.map_cons, List.cons_append, List.cons.injEq] at hlen
      obtain ⟨hpathlen, hrestlen⟩ := hlen
      obtain ⟨hpathvalid, hnodevis⟩ := hq path (by simp)
      have hspec := bfsStep_spec goal path (neighbors g (path.getLastD "")) visited rest hgoal
      simp only [bfsLoop]
      cases hstep : bfsStep goal path (neighbors g (path.getLastD "")) visited rest with
      | inl found =>
        obtain ⟨hfound, hgnbr⟩ := hspec.1 found hstep
        have hadj : adj g (path.getLastD "") goal :=
          (adj_iff_mem_map_fst g _ goal).mpr hgnbr
        have hvalid : IsPath g a goal found := by
          rw [hfound]
          exact hpathvalid.snoc hadj
        refine ⟨found, rfl, hvalid, ?_⟩
        intro q hq'
        have hflen : found.length = n + 1 := by
          rw [hfound, List.length_append, List.length_singleton, hpathlen]
        rw [hflen]
        exact hfront goal hgoal q hq'
      | inr vq =>
        obtain ⟨v', q'⟩ := vq
        obtain ⟨i1, i2, i3, i4, i5, i6⟩ := hspec.2 v' q' hstep
        obtain ⟨news, hq'eq, hnews⟩ := i4
        have hnode_closed : ∀ y, adj g (path.getLastD "") y → y ∈ v' := by
          intro y hy
          exact i3 y ((adj_iff_mem_map_fst g _ y).mp hy)
        have hsubv : ∀ x ∈ visited, x ∈ v' := i1
        have hq'valid : ∀ p ∈ q', IsPath g a (p.getLastD "") p ∧ p.getLastD "" ∈ v' := by
          intro p hp
          rw [hq'eq] at hp
          rcases List.mem_append.mp hp with hp | hp
          · obtain ⟨h1, h2⟩ := hq p (by simp [hp])
            exact ⟨h1, hsubv _ h2⟩
          · obtain ⟨x, hx1, hx2, hx3, hx4⟩ := hnews p hp
            subst hx1
            have hadj : adj g (path.getLastD "") x :=
              (adj_iff_mem_map_fst g _ x).mpr hx2
            have : (path ++ [x]).getLastD "" = x := by
              simp
            rw [this]
            exact ⟨hpathvalid.snoc hadj, hx4⟩
        have hq'min : ∀ p ∈ q', ∀ q, IsPath g a (p.getLastD "") q →
            p.length ≤ q.length := by
          intro p hp
          rw [hq'eq] at hp
          rcases List.mem_append.mp hp with hp | hp
          · exact hmin p (by simp [hp])
          · obtain ⟨x, hx1, hx2, hx3, hx4⟩ := hnews p hp
            subst hx1
            intro q hqx
            have hlast : (path ++ [x]).getLastD "" = x := by simp
            rw [hlast] at hqx
            have := hfront x hx3 q hqx
            rw [List.length_append, List.length_singleton, hpathlen]
            omega
        have hnewslen : news.map List.length = List.replicate news.length (n + 1) := by
          have : ∀ b ∈ news.map List.length, b = n + 1 := by
            intro b hb
            obtain ⟨p, hp, hpb⟩ := List.mem_map.mp hb
            obtain ⟨x, hx1, _, _, _⟩ := hnews p hp
            subst hx1
            rw [← hpb, List.length_append, List.length_singleton, hpathlen]
          calc news.map List.length
              = List.replicate (news.map List.length).length (n + 1) :=
                List.eq_replicate_of_mem this
            _ = List.replicate news.length (n + 1) := by rw [List.length_map]
        have hq'len : q'.map List.length =
            List.replicate j' n ++ List.replicate (k + news.length) (n + 1) := by
          rw [hq'eq, List.map_append, hrestlen, hnewslen, List.append_assoc,
            ← List.replicate_add]
        have hΦ' : q'.length +
            ((allNbrs g).toFinset.filter (fun x => x ∉ v')).card < f := by
          have hpot := bfsStep_potential (allNbrs g).toFinset goal path
            (neighbors g (path.getLastD "")) visited rest v' q'
            (fun m hm => List.mem_toFinset.mpr (mem_allNbrs hm)) hstep
          simp only [List.length_cons] at hΦ
          omega
        have hwork' : ∀ v ∈ v',
            (∃ p ∈ q', p.getLastD "" = v) ∨ ∀ y, adj g v y → y ∈ v' := by
          intro v hv
          rcases i5 v hv with hvv | hvq
          · rcases hwork v hvv with ⟨p, hp, hpl⟩ | hcl
            · rcases List.mem_cons.mp hp with hp | hp
              · subst hp
                right
                intro y hy
                rw [hpl] at hnode_closed
                exact hnode_closed y hy
              · exact Or.inl ⟨p, i6 p hp, hpl⟩
            · right
              intro y hy
              exact hsubv _ (hcl y hy)
          · exact Or.inl hvq
        by_cases hj' : 1 ≤ j'
        · exact ih v' q' n j' (k + news.length) hreach (hsubv a ha) i2 hΦ'
            hq'valid hq'min hq'len (fun _ => hj')
            (fun w hw q hqw => hfront w (fun hc => hw (hsubv w hc)) q hqw) hwork'
        · have hj0 : j' = 0 := by omega
          subst hj0
          have hq'len2 : q'.map List.length =
              List.replicate (k + news.length) (n + 1) ++
                List.replicate 0 (n + 1 + 1) := by
            simpa using hq'len
          have hfront' : ∀ w, w ∉ v' → ∀ q, IsPath g a w q →
              n + 1 + 1 ≤ q.length := by
            intro w hw q hqw
            obtain ⟨q1, u, v, hq1, hu, hv, huv, hle⟩ :=
              path_crossing (hsubv a ha) hw q hqw
            rcases hwork' u hu with ⟨p, hp, hpl⟩ | hcl
            · have hple : p.length ≤ q1.length := by
                have := hq'min p hp q1
                rw [hpl] at this
                exact this hq1
              have hpn : p.length = n + 1 := by
                have hmem : p.length ∈ q'.map List.length :=
                  List.mem_map.mpr ⟨p, hp, rfl⟩
                rw [hq'len2] at hmem
                simp only [List.replicate_zero, List.append_nil,
                  List.mem_replicate] at hmem
                exact hmem.2
              omega
            · exact absurd (hcl v huv) hv
          have hjq : q' ≠ [] → 1 ≤ k + news.length := by
            intro hne
            by_contra hc
            have h0 : k + news.length = 0 := by omega
            rw [h0] at hq'len2
            simp only [List.replicate_zero, List.append_nil] at hq'len2
            exact hne (List.map_eq_nil_iff.mp hq'len2)
          exact ih v' q' (n + 1) (k + news.length) 0 hreach (hsubv a ha) i2 hΦ'
            hq'valid hq'min hq'len2 hjq hfront' hwork'

theorem dfsNbrs_mem (f : String → List String → List String → List (List String)) :
    ∀ (nbrs : List (String × Weight)) (path visited : List String)
      (q : List String), q ∈ dfsNbrs f nbrs path visited →
      ∃ x, x ∈ nbrs.map Prod.fst ∧ x ∉ visited ∧ q ∈ f x (path ++ [x]) (x :: visited) := by
  intro nbrs
  induction nbrs with
  | nil => intro path visited q hq; simp [dfsNbrs] at hq
  | cons p rest ih =>
    intro path visited q hq
    obtain ⟨n, w⟩ := p
    simp only [dfsNbrs] at hq
    rcases List.mem_append.mp hq with hq | hq
    · by_cases hn : n ∈ visited
      · rw [if_pos hn] at hq
        simp at hq
      · rw [if_neg hn] at hq
        exact ⟨n, by simp, hn, hq⟩
    · obtain ⟨x, h1, h2, h3⟩ := ih path visited q hq
      exact ⟨x, by simp [h1], h2, h3⟩

/-- Every list produced by the bounded DFS is a path from `a` to `goal`. -/
theorem dfsAll_sound (g : AdjList) (a goal : String) (maxLength : ℕ) :
    ∀ (fuel : ℕ) (node : String) (path visited : List String) (q : List String),
      IsPath g a node path →
      q ∈ dfsAll g goal maxLength fuel node path visited →
      IsPath g a goal q := by
  intro fuel
  induction fuel with
  | zero => intro node path visited q _ hq; simp [dfsAll] at hq
  | succ f ihf =>
    intro node path visited q hp hq
    simp only [dfsAll] at hq
    by_cases hl : maxLength < path.length
    · rw [if_pos hl] at hq
      simp at hq
    · rw [if_neg hl] at hq
      by_cases hng : node = goal
      · subst hng
        rw [if_pos rfl] at hq
        simp only [List.mem_singleton] at hq
        subst hq
        exact hp
      · rw [if_neg hng] at hq
        obtain ⟨x, hx1, hx2, hx3⟩ := dfsNbrs_mem _ _ _ _ q hq
        have hadj : adj g node x := (adj_iff_mem_map_fst g node x).mpr hx1
        exact ihf x (path ++ [x]) (x :: visited) q (hp.snoc hadj) hx3

/-- Every list returned by `get_all_paths_limited` is a path from `a` to `b`. -/
theorem get_all_paths_limited_sound (g : AdjList) (a b : String) (maxLength : ℕ)
    (q : List String) (hq : q ∈ get_all_paths_limited g a b maxLength) :
    IsPath g a b q := by
  unfold get_all_paths_limited at hq
  by_cases h : ¬ hasKey g a ∨ ¬ hasKey g b
  · rw [if_pos h] at hq
    simp at hq
  · rw [if_neg h] at hq
    exact dfsAll_sound g a b maxLength _ a [a] [a] q (isPath_singleton g a) hq

theorem IsPath.two_le_length {g : AdjList} {a w : String} {q : List String}
    (h : IsPath g a w q) (hne : w ≠ a) : 2 ≤ q.length := by
  cases q with
  | nil => exact absurd rfl h.1
  | cons x rest =>
    cases rest with
    | nil =>
      exfalso
      have h1 : x = a := by simpa using h.2.1
      have h2 : x = w := by simpa using h.2.2.1
      exact hne (h2 ▸ h1)
    | cons y rest' => simp

theorem allNbrs_length (g : AdjList) : (allNbrs g).length = totalNbrLen g := by
  unfold allNbrs totalNbrLen
  rw [List.length_flatten, List.map_map]
  have hfe : (List.length ∘ fun e : String × List (String × Weight) =>
      List.map Prod.fst e.2) = fun e => e.2.length := by
    funext e
    simp
  rw [hfe]

/-- C1: for present endpoints with `b` reachable from `a`,
`bfs_shortest_path` returns a path from `a` to `b` of minimal vertex count;
`[v]` when the endpoints coincide; and never longer than any alternative
produced by `get_all_paths_limited` at a sufficient bound. -/
theorem C1_bfs_fewest_vertices (g : AdjList) (a b : String)
    (ha : hasKey g a = true) (hb : hasKey g b = true) (hr : Reachable g a b) :
    ∃ p, bfs_shortest_path g a b = some (some p) ∧ IsPath g a b p ∧
      (∀ q, IsPath g a b q → p.length ≤ q.length) ∧
      (a = b → p = [a]) ∧
      ∀ (maxLength : ℕ) (q : List String), p.length ≤ maxLength →
        q ∈ get_all_paths_limited g a b maxLength → p.length ≤ q.length := by
  by_cases hab : a = b
  · subst hab
    refine ⟨[a], by simp [bfs_shortest_path], isPath_singleton g a, ?_, fun _ => rfl, ?_⟩
    · intro q hq
      simpa using Nat.one_le_iff_ne_zero.mpr (by
        intro hc
        exact hq.1 (List.length_eq_zero.mp hc))
    · intro maxL q _ hq
      have hv := get_all_paths_limited_sound g a a maxL q hq
      simpa using Nat.one_le_iff_ne_zero.mpr (by
        intro hc
        exact hv.1 (List.length_eq_zero.mp hc))
  · have hreach : reach g a b := (reach_iff_reachable g a b).mpr hr
    have hΦ : ([[a]] : List (List String)).length +
        ((allNbrs g).toFinset.filter (fun x => x ∉ ([a] : List String))).card <
          bfsFuel g := by
      have h1 : ((allNbrs g).toFinset.filter
          (fun x => x ∉ ([a] : List String))).card ≤ (allNbrs g).toFinset.card :=
        Finset.card_filter_le _ _
      have h2 : (allNbrs g).toFinset.card ≤ (allNbrs g).length :=
        (allNbrs g).toFinset_card_le
      have h3 := allNbrs_length g
      unfold bfsFuel
      simp only [List.length_singleton]
      omega
    obtain ⟨p, hp, hvalid, hmin⟩ := bfsLoop_correct g a b (bfsFuel g) [a] [[a]] 1 1 0
      hreach (by simp) (by
        simp only [List.mem_singleton]
        exact fun hc => hab hc.symm) hΦ
      (by
        intro p hp
        simp only [List.mem_singleton] at hp
        subst hp
        exact ⟨isPath_singleton g a, by simp⟩)
      (by
        intro p hp q hq
        simp only [List.mem_singleton] at hp
        subst hp
        simpa using Nat.one_le_iff_ne_zero.mpr (by
          intro hc
          exact hq.1 (List.length_eq_zero.mp hc)))
      (by simp)
      (fun _ => le_rfl)
      (by
        intro w hw q hq
        have hwa : w ≠ a := by simpa using hw
        exact hq.two_le_length hwa)
      (by
        intro v hv
        simp only [List.mem_singleton] at hv
        subst hv
        exact Or.inl ⟨[v], by simp⟩)
    refine ⟨p, ?_, hvalid, hmin, fun hc => absurd hc hab, ?_⟩
    · unfold bfs_shortest_path
      rw [if_neg hab, if_neg (by simp [ha, hb])]
      exact hp
    · intro maxL q _ hq
      exact hmin q (get_all_paths_limited_sound g a b maxL q hq)

theorem C1_bfs_fewest_vertices_witness :
    ∃ p, bfs_shortest_path gS12 "S1" "S2" = some (some p) ∧
      IsPath gS12 "S1" "S2" p ∧
      (∀ q, IsPath gS12 "S1" "S2" q → p.length ≤ q.length) ∧
      ("S1" = "S2" → p = ["S1"]) ∧
      ∀ (maxLength : ℕ) (q : List String), p.length ≤ maxLength →
        q ∈ get_all_paths_limited gS12 "S1" "S2" maxLength → p.length ≤ q.length :=
  C1_bfs_fewest_vertices gS12 "S1" "S2" (by decide) (by decide)
    ⟨["S1", "S2"], by decide, rfl, rfl,
      List.chain'_cons.mpr ⟨by decide, List.chain'_singleton _⟩⟩

/-! ## Claims C2, C10 — Dijkstra -/

theorem entryLt_fst_le {x y : DEntry} (h : entryLt x y = true) : x.1 ≤ y.1 := by
  by_cases h2 : y.1 < x.1
  · exfalso
    unfold entryLt at h
    rw [if_neg (lt_asymm h2), if_pos h2] at h
    simp at h
  · exact le_of_not_lt h2

theorem not_entryLt_fst_le {x y : DEntry} (h : entryLt x y = false) : y.1 ≤ x.1 := by
  by_cases h1 : x.1 < y.1
  · exfalso
    unfold entryLt at h
    rw [if_pos h1] at h
    simp at h
  · exact le_of_not_lt h1

theorem minEntry_mem (e : DEntry) (rest : List DEntry) :
    minEntry e rest ∈ e :: rest := by
  induction rest generalizing e with
  | nil => simp [minEntry]
  | cons f r ih =>
    simp only [minEntry]
    by_cases h : entryLt f e
    · rw [if_pos h]
      rcases List.mem_cons.mp (ih f) with h' | h'
      · simp [h']
      · simp [h']
    · rw [if_neg h]
      rcases List.mem_cons.mp (ih e) with h' | h'
      · simp [h']
      · simp [h']

theorem minEntry_fst_le (e : DEntry) (rest : List DEntry) :
    ∀ x ∈ e :: rest, (minEntry e rest).1 ≤ x.1 := by
  induction rest generalizing e with
  | nil =>
    intro x hx
    simp only [List.mem_singleton] at hx
    subst hx
    exact le_rfl
  | cons f r ih =>
    intro x hx
    simp only [minEntry]
    have h1 : ∀ y ∈ (if entryLt f e then f else e) :: r,
        (minEntry (if entryLt f e then f else e) r).1 ≤ y.1 :=
      ih (if entryLt f e then f else e)
    have hself : (minEntry (if entryLt f e then f else e) r).1 ≤
        (if entryLt f e then f else e).1 := h1 _ (by simp)
    have hee : (minEntry (if entryLt f e then f else e) r).1 ≤ e.1 := by
      by_cases h : entryLt f e
      · refine le_trans hself ?_
        rw [if_pos h]
        exact entryLt_fst_le h
      · refine le_trans hself ?_
        rw [if_neg h]
    have hff : (minEntry (if entryLt f e then f else e) r).1 ≤ f.1 := by
      by_cases h : entryLt f e
      · refine le_trans hself ?_
        rw [if_pos h]
      · refine le_trans hself ?_
        rw [if_neg h]
        exact not_entryLt_fst_le (eq_false_of_ne_true h)
    rcases List.mem_cons.mp hx with rfl | hx'
    · exact hee
    · rcases List.mem_cons.mp hx' with rfl | hx''
      · exact hff
      · exact h1 x (by simp [hx''])

theorem removeEntry_subset {l : List DEntry} {x y : DEntry}
    (h : y ∈ removeEntry l x) : y ∈ l := by
  induction l with
  | nil => simp [removeEntry] at h
  | cons f r ih =>
    simp only [removeEntry] at h
    by_cases hf : f = x
    · rw [if_pos hf] at h
      simp [h]
    · rw [if_neg hf] at h
      rcases List.mem_cons.mp h with h' | h'
      · simp [h']
      · simp [ih h']

theorem removeEntry_mem_of_ne {l : List DEntry} {x y : DEntry}
    (hy : y ∈ l) (hne : y ≠ x) : y ∈ removeEntry l x := by
  induction l with
  | nil => simp at hy
  | cons f r ih =>
    simp only [removeEntry]
    by_cases hf : f = x
    · rw [if_pos hf]
      rcases List.mem_cons.mp hy with h' | h'
      · exact absurd (h' ▸ hf) hne
      · exact h'
    · rw [if_neg hf]
      rcases List.mem_cons.mp hy with h' | h'
      · simp [h']
      · simp [ih h']

theorem removeEntry_length {l : List DEntry} {x : DEntry} (h : x ∈ l) :
    (removeEntry l x).length + 1 = l.length := by
  induction l with
  | nil => simp at h
  | cons f r ih =>
    simp only [removeEntry]
    by_cases hf : f = x
    · rw [if_pos hf]
      simp
    · rw [if_neg hf]
      have hx : x ∈ r := by
        rcases List.mem_cons.mp h with h' | h'
        · exact absurd h'.symm hf
        · exact h'
      simp only [List.length_cons]
      rw [← ih hx]

theorem pushNeighbors_cons_none {seen : List (String × Weight)} {n : String}
    (dist : Weight) (path : List String) (w : Weight) (rest : List (String × Weight))
    (q : List DEntry) (h : dictGet seen n = none) :
    pushNeighbors seen dist path q ((n, w) :: rest) =
      pushNeighbors seen dist path
        (q ++ [(dist + (if w = 0 then 1 else w), n, path ++ [n])]) rest := by
  simp only [pushNeighbors, h]

theorem pushNeighbors_cons_lt {seen : List (String × Weight)} {n : String}
    {d : Weight} (dist : Weight) (path : List String) (w : Weight)
    (rest : List (String × Weight)) (q : List DEntry)
    (h : dictGet seen n = some d) (hlt : dist + (if w = 0 then 1 else w) < d) :
    pushNeighbors seen dist path q ((n, w) :: rest) =
      pushNeighbors seen dist path
        (q ++ [(dist + (if w = 0 then 1 else w), n, path ++ [n])]) rest := by
  simp only [pushNeighbors, h, if_pos hlt]

theorem pushNeighbors_cons_ge {seen : List (String × Weight)} {n : String}
    {d : Weight} (dist : Weight) (path : List String) (w : Weight)
    (rest : List (String × Weight)) (q : List DEntry)
    (h : dictGet seen n = some d) (hlt : ¬ dist + (if w = 0 then 1 else w) < d) :
    pushNeighbors seen dist path q ((n, w) :: rest) =
      pushNeighbors seen dist path q rest := by
  simp only [pushNeighbors, h, if_neg hlt]

theorem pushNeighbors_mono (seen : List (String × Weight)) (dist : Weight)
    (path : List String) :
    ∀ (nbrs : List (String × Weight)) (q : List DEntry) (e : DEntry),
      e ∈ q → e ∈ pushNeighbors seen dist path q nbrs := by
  intro nbrs
  induction nbrs with
  | nil => intro q e he; exact he
  | cons p rest ih =>
    intro q e he
    obtain ⟨n, w⟩ := p
    cases hg : dictGet seen n with
    | none =>
      rw [pushNeighbors_cons_none dist path w rest q hg]
      exact ih _ e (by simp [he])
    | some d =>
      by_cases hlt : dist + (if w = 0 then 1 else w) < d
      · rw [pushNeighbors_cons_lt dist path w rest q hg hlt]
        exact ih _ e (by simp [he])
      · rw [pushNeighbors_cons_ge dist path w rest q hg hlt]
        exact ih _ e he

theorem pushNeighbors_mem (seen : List (String × Weight)) (dist : Weight)
    (path : List String) :
    ∀ (nbrs : List (String × Weight)) (q : List DEntry) (e : DEntry),
      e ∈ pushNeighbors seen dist path q nbrs →
      e ∈ q ∨ ∃ x w, (x, w) ∈ nbrs ∧ e = (dist + effW w, x, path ++ [x]) := by
  intro nbrs
  induction nbrs with
  | nil => intro q e he; exact Or.inl he
  | cons p rest ih =>
    intro q e he
    obtain ⟨n, w⟩ := p
    have hrec : ∀ q0 : List DEntry,
        e ∈ pushNeighbors seen dist path
          (q0 ++ [(dist + (if w = 0 then 1 else w), n, path ++ [n])]) rest →
        e ∈ q0 ∨ ∃ x w2, (x, w2) ∈ (n, w) :: rest ∧
          e = (dist + effW w2, x, path ++ [x]) := by
      intro q0 h0
      rcases ih _ e h0 with h | h
      · rcases List.mem_append.mp h with h | h
        · exact Or.inl h
        · simp only [List.mem_singleton] at h
          exact Or.inr ⟨n, w, by simp, by simpa [effW] using h⟩
      · obtain ⟨x, w2, hx, he2⟩ := h
        exact Or.inr ⟨x, w2, by simp [hx], he2⟩
    cases hg : dictGet seen n with
    | none =>
      rw [pushNeighbors_cons_none dist path w rest q hg] at he
      exact hrec q he
    | some d =>
      by_cases hlt : dist + (if w = 0 then 1 else w) < d
      · rw [pushNeighbors_cons_lt dist path w rest q hg hlt] at he
        exact hrec q he
      · rw [pushNeighbors_cons_ge dist path w rest q hg hlt] at he
        rcases ih _ e he with h | h
        · exact Or.inl h
        · obtain ⟨x, w2, hx, he2⟩ := h
          exact Or.inr ⟨x, w2, by simp [hx], he2⟩

theorem pushNeighbors_covers (seen : List (String × Weight)) (dist : Weight)
    (path : List String) :
    ∀ (nbrs : List (String × Weight)) (q : List DEntry) (x : String) (w : Weight),
      dictGet nbrs x = some w → dictGet seen x = none →
      (dist + effW w, x, path ++ [x]) ∈ pushNeighbors seen dist path q nbrs := by
  intro nbrs
  induction nbrs with
  | nil => intro q x w hx _; simp [dictGet] at hx
  | cons p rest ih =>
    intro q x w hx hseen
    obtain ⟨n, wn⟩ := p
    by_cases hn : n = x
    · subst hn
      have hwn : wn = w := by
        simpa [dictGet] using hx
      subst hwn
      rw [pushNeighbors_cons_none dist path wn rest q hseen]
      apply pushNeighbors_mono
      simp [effW]
    · simp only [dictGet, if_neg hn] at hx
      cases hg : dictGet seen n with
      | none =>
        rw [pushNeighbors_cons_none dist path wn rest q hg]
        exact ih _ x w hx hseen
      | some d =>
        by_cases hlt : dist + (if wn = 0 then 1 else wn) < d
        · rw [pushNeighbors_cons_lt dist path wn rest q hg hlt]
          exact ih _ x w hx hseen
        · rw [pushNeighbors_cons_ge dist path wn rest q hg hlt]
          exact ih _ x w hx hseen

theorem pushNeighbors_length (seen : List (String × Weight)) (dist : Weight)
    (path : List String) :
    ∀ (nbrs : List (String × Weight)) (q : List DEntry),
      (pushNeighbors seen dist path q nbrs).length ≤ q.length + nbrs.length := by
  intro nbrs
  induction nbrs with
  | nil => intro q; simp [pushNeighbors]
  | cons p rest ih =>
    intro q
    obtain ⟨n, w⟩ := p
    cases hg : dictGet seen n with
    | none =>
      rw [pushNeighbors_cons_none dist path w rest q hg]
      have := ih (q ++ [(dist + (if w = 0 then 1 else w), n, path ++ [n])])
      rw [List.length_append, List.length_singleton] at this
      simp only [List.length_cons]
      omega
    | some d =>
      by_cases hlt : dist + (if w = 0 then 1 else w) < d
      · rw [pushNeighbors_cons_lt dist path w rest q hg hlt]
        have := ih (q ++ [(dist + (if w = 0 then 1 else w), n, path ++ [n])])
        rw [List.length_append, List.length_singleton] at this
        simp only [List.length_cons]
        omega
      · rw [pushNeighbors_cons_ge dist path w rest q hg hlt]
        have := ih q
        simp only [List.length_cons]
        omega

theorem effW_nonneg {w : Weight} (h : 0 ≤ w) : 0 ≤ effW w := by
  unfold effW
  split_ifs with h0
  · norm_num
  · exact h

theorem effW_ge {w : Weight} (h : 0 ≤ w) : w ≤ effW w := by
  unfold effW
  split_ifs with h0
  · rw [h0]; norm_num
  · exact le_rfl

theorem adj_weight_nonneg {g : AdjList} (hnn : NonnegW g) {x y : String}
    (h : adj g x y) : 0 ≤ (edgeWeight? g x y).getD 0 := by
  unfold adj at h
  obtain ⟨w, hw⟩ := Option.isSome_iff_exists.mp h
  rw [hw]
  exact hnn x y w hw

theorem pathCostE_nonneg (g : AdjList) (hnn : NonnegW g) :
    ∀ q : List String, List.Chain' (adj g) q → 0 ≤ pathCostE g q := by
  intro q
  induction q with
  | nil => intro _; simp [pathCostE]
  | cons x rest ih =>
    intro hc
    cases rest with
    | nil => simp [pathCostE]
    | cons y r =>
      rw [List.chain'_cons] at hc
      have h1 := effW_nonneg (adj_weight_nonneg hnn hc.1)
      have h2 := ih hc.2
      simp only [pathCostE]
      linarith

theorem pathCostE_ge_stored (g : AdjList) (hnn : NonnegW g) :
    ∀ q : List String, List.Chain' (adj g) q →
      pathCostStored g q ≤ pathCostE g q := by
  intro q
  induction q with
  | nil => intro _; simp [pathCostE, pathCostStored]
  | cons x rest ih =>
    intro hc
    cases rest with
    | nil => simp [pathCostE, pathCostStored]
    | cons y r =>
      rw [List.chain'_cons] at hc
      have h1 := effW_ge (adj_weight_nonneg hnn hc.1)
      have h2 := ih hc.2
      simp only [pathCostE, pathCostStored]
      linarith

theorem pathCostE_eq_stored (g : AdjList) (hpos : PosW g) :
    ∀ q : List String, List.Chain' (adj g) q →
      pathCostE g q = pathCostStored g q := by
  intro q
  induction q with
  | nil => intro _; simp [pathCostE, pathCostStored]
  | cons x rest ih =>
    intro hc
    cases rest with
    | nil => simp [pathCostE, pathCostStored]
    | cons y r =>
      rw [List.chain'_cons] at hc
      have hadj := hc.1
      unfold adj at hadj
      obtain ⟨w, hw⟩ := Option.isSome_iff_exists.mp hadj
      have hwpos := hpos x y w hw
      simp only [pathCostE, pathCostStored, hw, Option.getD_some]
      rw [ih hc.2]
      unfold effW
      rw [if_neg (by linarith)]

theorem pathCostE_append_single (g : AdjList) :
    ∀ (p : List String), p ≠ [] → ∀ x : String,
      pathCostE g (p ++ [x]) =
        pathCostE g p + effW ((edgeWeight? g (p.getLastD "") x).getD 0) := by
  intro p
  induction p with
  | nil => intro h; exact absurd rfl h
  | cons a rest ih =>
    intro _ x
    cases rest with
    | nil =>
      simp [pathCostE]
    | cons b r =>
      have hih := ih (by simp) x
      have hlast : (a :: b :: r).getLastD "" = (b :: r).getLastD "" := by
        simp [List.getLastD]
      have hL : pathCostE g ((a :: b :: r) ++ [x]) =
          effW ((edgeWeight? g a b).getD 0) + pathCostE g ((b :: r) ++ [x]) := rfl
      have hR : pathCostE g (a :: b :: r) =
          effW ((edgeWeight? g a b).getD 0) + pathCostE g (b :: r) := rfl
      rw [hL, hih, hR, hlast]
      ring

theorem getLastD_of_getLast? {l : List String} {b : String}
    (h : l.getLast? = some b) : l.getLastD "" = b := by
  rw [List.getLastD_eq_getLast?, h]
  rfl

/-- Cost-aware boundary crossing: a path from a `seen` vertex to an unseen one
passes an edge out of `seen`, at no greater effective cost. -/
theorem path_cost_crossing (g : AdjList) (hnn : NonnegW g)
    (seen : List (String × Weight)) {a w : String}
    (ha : (dictGet seen a).isSome) (hw : dictGet seen w = none) :
    ∀ q, IsPath g a w q →
      ∃ (q1 : List String) (u v : String) (wt : Weight),
        IsPath g a u q1 ∧ (dictGet seen u).isSome = true ∧
        dictGet seen v = none ∧ edgeWeight? g u v = some wt ∧
        pathCostE g q1 + effW wt ≤ pathCostE g q := by
  intro q
  induction q generalizing a with
  | nil => intro hq; exact absurd rfl hq.1
  | cons x rest ih =>
    intro hq
    have hx : x = a := by simpa using hq.2.1
    subst hx
    cases rest with
    | nil =>
      exfalso
      have : x = w := by simpa using hq.2.2.1
      subst this
      rw [hw] at ha
      simp at ha
    | cons y rest' =>
      have hchain := hq.2.2.2
      rw [List.chain'_cons] at hchain
      obtain ⟨wa, hwa⟩ := Option.isSome_iff_exists.mp hchain.1
      have hrest : IsPath g y w (y :: rest') := by
        refine ⟨by simp, rfl, ?_, hchain.2⟩
        simpa [List.getLast?_cons_cons] using hq.2.2.1
      have hcost : pathCostE g (x :: y :: rest') =
          effW wa + pathCostE g (y :: rest') := by
        simp only [pathCostE, hwa, Option.getD_some]
      cases hy : dictGet seen y with
      | none =>
        refine ⟨[x], x, y, wa, isPath_singleton g x, ha, hy, hwa, ?_⟩
        have h0 := pathCostE_nonneg g hnn (y :: rest') hchain.2
        rw [hcost]
        simp only [pathCostE]
        linarith
      | some dy =>
        obtain ⟨q1, u, v, wt, hq1, hu, hv, hwt, hle⟩ :=
          ih (a := y) (by simp [hy]) hrest
        obtain ⟨t, ht⟩ : ∃ t, q1 = y :: t := by
          cases q1 with
          | nil => exact absurd rfl hq1.1
          | cons z t =>
            have : z = y := by simpa using hq1.2.1
            exact ⟨t, by rw [this]⟩
        refine ⟨x :: q1, u, v, wt, hq1.cons (by unfold adj; rw [hwa]; rfl), hu, hv, hwt, ?_⟩
        have hcons : pathCostE g (x :: q1) = effW wa + pathCostE g q1 := by
          rw [ht]
          simp only [pathCostE, hwa, Option.getD_some]
        rw [hcons, hcost]
        have h1 := effW_nonneg (hnn x y wa hwa)
        linarith

/-- If the goal-side vertex is unseen, some queue entry costs no more than any
path to it (the velvet-style cover lemma). -/
theorem dijkstra_cover (g : AdjList) (a : String) (hnn : NonnegW g)
    (queue : List DEntry) (seen : List (String × Weight))
    (hseen : ∀ v d, dictGet seen v = some d →
      (∃ p, IsPath g a v p ∧ pathCostE g p = d) ∧
        ∀ q, IsPath g a v q → d ≤ pathCostE g q)
    (hfront : ∀ v d, dictGet seen v = some d → ∀ x wt,
      edgeWeight? g v x = some wt → dictGet seen x = none →
      ∃ p, (d + effW wt, x, p) ∈ queue)
    (hstart : (dictGet seen a).isSome = true ∨ (0, a, [a]) ∈ queue)
    {w : String} (hw : dictGet seen w = none) {q : List String}
    (hq : IsPath g a w q) :
    ∃ e ∈ queue, e.1 ≤ pathCostE g q := by
  by_cases ha : (dictGet seen a).isSome = true
  · obtain ⟨q1, u, v, wt, hq1, hu, hv, hwt, hle⟩ :=
      path_cost_crossing g hnn seen ha hw q hq
    obtain ⟨du, hdu⟩ := Option.isSome_iff_exists.mp hu
    obtain ⟨p', hp'⟩ := hfront u du hdu v wt hwt hv
    refine ⟨(du + effW wt, v, p'), hp', ?_⟩
    have hmin := (hseen u du hdu).2 q1 hq1
    simp only
    linarith
  · rcases hstart with h | h
    · exact absurd h ha
    · exact ⟨(0, a, [a]), h, pathCostE_nonneg g hnn q hq.2.2.2⟩

theorem neighbors_length_le (g : AdjList) (v : String) :
    (neighbors g v).length ≤ totalNbrLen g := by
  unfold neighbors
  cases hv : dictGet g v with
  | none => simp
  | some nbrs =>
    have hmem : (v, nbrs) ∈ g := dictGet_eq_some_mem hv
    have : nbrs.length ∈ g.map (fun e => e.2.length) :=
      List.mem_map.mpr ⟨(v, nbrs), hmem, rfl⟩
    exact List.single_le_sum (fun x _ => Nat.zero_le x) _ this

theorem neighbors_nodup {g : AdjList} (hnd : NodupNbrKeys g) (v : String) :
    ((neighbors g v).map Prod.fst).Nodup := by
  unfold neighbors
  cases hv : dictGet g v with
  | none => simp
  | some nbrs => exact hnd (v, nbrs) (dictGet_eq_some_mem hv)

theorem dictGet_of_mem_nodup {β : Type} {d : List (String × β)}
    (hnd : (d.map Prod.fst).Nodup) {k : String} {v : β} (h : (k, v) ∈ d) :
    dictGet d k = some v := by
  induction d with
  | nil => simp at h
  | cons p rest ih =>
    obtain ⟨a, b⟩ := p
    simp only [List.map_cons, List.nodup_cons] at hnd
    rcases List.mem_cons.mp h with h' | h'
    · cases h'
      simp [dictGet]
    · have hak : a ≠ k := by
        intro hc
        subst hc
        exact hnd.1 (List.mem_map.mpr ⟨(a, v), h', rfl⟩)
      simp only [dictGet, if_neg hak]
      exact ih hnd.2 h'

theorem dictGet_dictSet_none_iff (seen : List (String × Weight))
    (node x : String) (dv : Weight) :
    dictGet (dictSet seen node dv) x = none ↔
      x ≠ node ∧ dictGet seen x = none := by
  by_cases hx : x = node
  · subst hx
    rw [dictGet_dictSet_self]
    simp
  · rw [dictGet_dictSet_ne _ _ _ _ (fun hc => hx hc.symm)]
    simp [hx]

theorem seenFilter_card_lt (U : Finset String) (seen : List (String × Weight))
    (node : String) (dv : Weight) (hmem : node ∈ U)
    (hnone : dictGet seen node = none) :
    (U.filter (fun v => dictGet (dictSet seen node dv) v = none)).card <
      (U.filter (fun v => dictGet seen v = none)).card := by
  have hnn : node ∈ U.filter (fun v => dictGet seen v = none) := by
    simp only [Finset.mem_filter]
    exact ⟨hmem, hnone⟩
  have hss : U.filter (fun v => dictGet (dictSet seen node dv) v = none) ⊆
      (U.filter (fun v => dictGet seen v = none)).erase node := by
    intro x hx
    simp only [Finset.mem_filter] at hx
    obtain ⟨hxU, hxn⟩ := hx
    rw [dictGet_dictSet_none_iff] at hxn
    rw [Finset.mem_erase, Finset.mem_filter]
    exact ⟨hxn.1, hxU, hxn.2⟩
  exact lt_of_le_of_lt (Finset.card_le_card hss)
    (Finset.card_erase_lt_of_mem hnn)

theorem edgeWeight_of_mem_nbrs {g : AdjList} (hnd : NodupNbrKeys g) {v x : String}
    {w : Weight} (h : (x, w) ∈ neighbors g v) : edgeWeight? g v x = some w :=
  dictGet_of_mem_nodup (neighbors_nodup hnd v) h

theorem posW_of_weights (g : AdjList) (h : ∀ e ∈ g, ∀ x ∈ e.2, 0 < x.2) :
    PosW g := by
  intro a b w hw
  unfold edgeWeight? neighbors at hw
  cases hg : dictGet g a with
  | none => rw [hg] at hw; simp [dictGet] at hw
  | some nbrs =>
    rw [hg] at hw
    exact h (a, nbrs) (dictGet_eq_some_mem hg) (b, w) (dictGet_eq_some_mem hw)

theorem nonnegW_of_weights (g : AdjList) (h : ∀ e ∈ g, ∀ x ∈ e.2, 0 ≤ x.2) :
    NonnegW g := by
  intro a b w hw
  unfold edgeWeight? neighbors at hw
  cases hg : dictGet g a with
  | none => rw [hg] at hw; simp [dictGet] at hw
  | some nbrs =>
    rw [hg] at hw
    exact h (a, nbrs) (dictGet_eq_some_mem hg) (b, w) (dictGet_eq_some_mem hw)

theorem seenSkip_eq_false {seen : List (String × Weight)} {node : String}
    {dist : Weight} (h : seenSkip seen node dist = false) :
    dictGet seen node = none ∨ ∃ d, dictGet seen node = some d ∧ dist < d := by
  unfold seenSkip at h
  cases hsd : dictGet seen node with
  | none => exact Or.inl rfl
  | some d =>
    rw [hsd] at h
    simp only [decide_eq_false_iff_not, not_le] at h
    exact Or.inr ⟨d, rfl, h⟩

theorem dijkstraLoop_cons (g : AdjList) (goal : String) (fuel : ℕ)
    (e : DEntry) (rest : List DEntry) (seen : List (String × Weight)) :
    dijkstraLoop g goal (fuel + 1) (e :: rest) seen =
      if seenSkip seen (minEntry e rest).2.1 (minEntry e rest).1 then
        dijkstraLoop g goal fuel (removeEntry (e :: rest) (minEntry e rest)) seen
      else if (minEntry e rest).2.1 = goal then
        some (some ((minEntry e rest).1, (minEntry e rest).2.2))
      else
        dijkstraLoop g goal fuel
          (pushNeighbors (dictSet seen (minEntry e rest).2.1 (minEntry e rest).1)
            (minEntry e rest).1 (minEntry e rest).2.2
            (removeEntry (e :: rest) (minEntry e rest))
            (neighbors g (minEntry e rest).2.1))
          (dictSet seen (minEntry e rest).2.1 (minEntry e rest).1) := rfl

theorem dijkstraLoop_cons_skip (g : AdjList) (goal : String) (fuel : ℕ)
    (e : DEntry) (rest : List DEntry) (seen : List (String × Weight))
    (h : seenSkip seen (minEntry e rest).2.1 (minEntry e rest).1 = true) :
    dijkstraLoop g goal (fuel + 1) (e :: rest) seen =
      dijkstraLoop g goal fuel (removeEntry (e :: rest) (minEntry e rest)) seen := by
  rw [dijkstraLoop_cons, if_pos h]

theorem dijkstraLoop_cons_goal (g : AdjList) (goal : String) (fuel : ℕ)
    (e : DEntry) (rest : List DEntry) (seen : List (String × Weight))
    (h : seenSkip seen (minEntry e rest).2.1 (minEntry e rest).1 = false)
    (hg : (minEntry e rest).2.1 = goal) :
    dijkstraLoop g goal (fuel + 1) (e :: rest) seen =
      some (some ((minEntry e rest).1, (minEntry e rest).2.2)) := by
  rw [dijkstraLoop_cons, if_neg (by simp [h]), if_pos hg]

theorem dijkstraLoop_cons_push (g : AdjList) (goal : String) (fuel : ℕ)
    (e : DEntry) (rest : List DEntry) (seen : List (String × Weight))
    (h : seenSkip seen (minEntry e rest).2.1 (minEntry e rest).1 = false)
    (hg : ¬ (minEntry e rest).2.1 = goal) :
    dijkstraLoop g goal (fuel + 1) (e :: rest) seen =
      dijkstraLoop g goal fuel
        (pushNeighbors (dictSet seen (minEntry e rest).2.1 (minEntry e rest).1)
          (minEntry e rest).1 (minEntry e rest).2.2
          (removeEntry (e :: rest) (minEntry e rest))
          (neighbors g (minEntry e rest).2.1))
        (dictSet seen (minEntry e rest).2.1 (minEntry e rest).1) := by
  rw [dijkstraLoop_cons, if_neg (by simp [h]), if_neg hg]

/-- Main invariant lemma for the `dijkstra` loop: with nonnegative weights and
duplicate-free neighbor dicts, from any state satisfying the queue/seen
invariants and with enough fuel, the loop returns a minimal-effective-cost
path to the goal, or `None` exactly when the goal is unreachable. -/
theorem dijkstraLoop_spec (g : AdjList) (a goal : String) (hnn : NonnegW g)
    (hnd : NodupNbrKeys g) (U : Finset String) (hU : ∀ x ∈ allNbrs g, x ∈ U) :
    ∀ (fuel : ℕ) (queue : List DEntry) (seen : List (String × Weight)) (f : Weight),
      (∀ e ∈ queue, IsPath g a e.2.1 e.2.2 ∧ pathCostE g e.2.2 = e.1) →
      (∀ v d, dictGet seen v = some d →
        (∃ p, IsPath g a v p ∧ pathCostE g p = d) ∧
          ∀ q, IsPath g a v q → d ≤ pathCostE g q) →
      (∀ v d, dictGet seen v = some d → ∀ x wt, edgeWeight? g v x = some wt →
        dictGet seen x = none → ∃ p, (d + effW wt, x, p) ∈ queue) →
      ((dictGet seen a).isSome = true ∨ (0, a, [a]) ∈ queue) →
      dictGet seen goal = none →
      (∀ e ∈ queue, f ≤ e.1) →
      (∀ v d, dictGet seen v = some d → d ≤ f) →
      (∀ e ∈ queue, e.2.1 ∈ U) →
      queue.length +
        (U.filter (fun v => dictGet seen v = none)).card * (totalNbrLen g + 1) < fuel →
      (∃ d p, dijkstraLoop g goal fuel queue seen = some (some (d, p)) ∧
        IsPath g a goal p ∧ pathCostE g p = d ∧
        ∀ q, IsPath g a goal q → d ≤ pathCostE g q) ∨
      (dijkstraLoop g goal fuel queue seen = some none ∧ ¬ Reachable g a goal) := by
  intro fuel
  induction fuel with
  | zero =>
    intro queue seen f _ _ _ _ _ _ _ _ hpot
    exact absurd hpot (Nat.not_lt_zero _)
  | succ fuel ih =>
    intro queue seen f hQ hS hF hSt hG hFQ hFS hQU hpot
    cases queue with
    | nil =>
      right
      refine ⟨rfl, ?_⟩
      rintro ⟨q, hq⟩
      obtain ⟨e', he', -⟩ := dijkstra_cover g a hnn [] seen hS hF hSt hG hq
      simp at he'
    | cons e rest =>
      have hmdef : ∃ m : DEntry, minEntry e rest = m := ⟨minEntry e rest, rfl⟩
      obtain ⟨m, hmdef⟩ := hmdef
      have hm_mem : m ∈ e :: rest := hmdef ▸ minEntry_mem e rest
      have hm_min : ∀ x ∈ e :: rest, m.1 ≤ x.1 := by
        intro x hx
        exact hmdef ▸ minEntry_fst_le e rest x hx
      have hfm : f ≤ m.1 := hFQ m hm_mem
      by_cases hskip : seenSkip seen m.2.1 m.1 = true
      · -- stale entry: pop and discard
        rw [dijkstraLoop_cons_skip g goal fuel e rest seen (by rw [hmdef]; exact hskip),
          hmdef]
        have hmsome : (dictGet seen m.2.1).isSome = true := by
          unfold seenSkip at hskip
          cases hsd : dictGet seen m.2.1 with
          | none => rw [hsd] at hskip; simp at hskip
          | some d => simp [hsd]
        refine ih (removeEntry (e :: rest) m) seen f ?_ hS ?_ ?_ hG ?_ hFS ?_ ?_
        · intro x hx
          exact hQ x (removeEntry_subset hx)
        · intro v d hv x wt hwt hx
          obtain ⟨p, hp⟩ := hF v d hv x wt hwt hx
          refine ⟨p, removeEntry_mem_of_ne hp ?_⟩
          intro hc
          have hx1 : x = m.2.1 := congrArg (fun z : DEntry => z.2.1) hc
          rw [hx1] at hx
          rw [hx] at hmsome
          simp at hmsome
        · rcases hSt with h | h
          · exact Or.inl h
          · by_cases hcm : ((0 : Weight), a, [a]) = m
            · left
              have ham : a = m.2.1 := congrArg (fun z : DEntry => z.2.1) hcm
              rw [ham]
              exact hmsome
            · exact Or.inr (removeEntry_mem_of_ne h hcm)
        · intro x hx
          exact hFQ x (removeEntry_subset hx)
        · intro x hx
          exact hQU x (removeEntry_subset hx)
        · have hlen := removeEntry_length hm_mem
          omega
      · -- genuinely new minimum entry
        have hskipF : seenSkip seen m.2.1 m.1 = false := by
          cases h : seenSkip seen m.2.1 m.1
          · rfl
          · exact absurd h hskip
        have hmnone : dictGet seen m.2.1 = none := by
          rcases seenSkip_eq_false hskipF with h | ⟨d, hd, hlt⟩
          · exact h
          · exact absurd (lt_of_le_of_lt (le_trans (hFS m.2.1 d hd) hfm) hlt)
              (lt_irrefl _)
        obtain ⟨hpathm, hcostm⟩ := hQ m hm_mem
        have hminm : ∀ q, IsPath g a m.2.1 q → m.1 ≤ pathCostE g q := by
          intro q hq
          obtain ⟨e', he', hle⟩ :=
            dijkstra_cover g a hnn (e :: rest) seen hS hF hSt hmnone hq
          exact le_trans (hm_min e' he') hle
        by_cases hgoal : m.2.1 = goal
        · -- goal popped: return
          rw [dijkstraLoop_cons_goal g goal fuel e rest seen
            (by rw [hmdef]; exact hskipF) (by rw [hmdef]; exact hgoal), hmdef]
          left
          refine ⟨m.1, m.2.2, rfl, ?_, hcostm, ?_⟩
          · rw [← hgoal]
            exact hpathm
          · intro q hq
            rw [← hgoal] at hq
            exact hminm q hq
        · -- expand the popped node's neighbors
          rw [dijkstraLoop_cons_push g goal fuel e rest seen
            (by rw [hmdef]; exact hskipF) (by rw [hmdef]; exact hgoal), hmdef]
          have hlast : m.2.2.getLastD "" = m.2.1 := getLastD_of_getLast? hpathm.2.2.1
          refine ih (pushNeighbors (dictSet seen m.2.1 m.1) m.1 m.2.2
              (removeEntry (e :: rest) m) (neighbors g m.2.1))
            (dictSet seen m.2.1 m.1) m.1 ?_ ?_ ?_ ?_ ?_ ?_ ?_ ?_ ?_
          · -- queue entries are genuine minimal-bookkeeping paths
            intro e' he'
            rcases pushNeighbors_mem _ _ _ _ _ _ he' with h' | ⟨x, w, hmemx, hex⟩
            · exact hQ e' (removeEntry_subset h')
            · subst hex
              have hEW := edgeWeight_of_mem_nbrs hnd hmemx
              have hadjx : adj g m.2.1 x := by
                unfold adj
                rw [hEW]
                rfl
              refine ⟨hpathm.snoc hadjx, ?_⟩
              show pathCostE g (m.2.2 ++ [x]) = m.1 + effW w
              rw [pathCostE_append_single g m.2.2 hpathm.1 x, hlast, hEW,
                Option.getD_some, hcostm]
          · -- finalized distances are minimal
            intro v d hv
            by_cases hvm : v = m.2.1
            · subst hvm
              rw [dictGet_dictSet_self] at hv
              obtain rfl := Option.some_inj.mp hv
              exact ⟨⟨m.2.2, hpathm, hcostm⟩, hminm⟩
            · rw [dictGet_dictSet_ne _ _ _ _ (fun hc => hvm hc.symm)] at hv
              exact hS v d hv
          · -- every edge out of the finalized region is represented
            intro v d hv x wt hwt hx
            have hx' := (dictGet_dictSet_none_iff seen m.2.1 x m.1).mp hx
            by_cases hvm : v = m.2.1
            · subst hvm
              rw [dictGet_dictSet_self] at hv
              obtain rfl := Option.some_inj.mp hv
              exact ⟨m.2.2 ++ [x],
                pushNeighbors_covers _ _ _ (neighbors g m.2.1) _ x wt hwt hx⟩
            · rw [dictGet_dictSet_ne _ _ _ _ (fun hc => hvm hc.symm)] at hv
              obtain ⟨p, hp⟩ := hF v d hv x wt hwt hx'.2
              refine ⟨p, pushNeighbors_mono _ _ _ _ _ _
                (removeEntry_mem_of_ne hp ?_)⟩
              intro hc
              exact hx'.1 (congrArg (fun z : DEntry => z.2.1) hc)
          · -- the source stays accounted for
            by_cases ham : a = m.2.1
            · left
              rw [ham, dictGet_dictSet_self]
              rfl
            · rcases hSt with h | h
              · left
                rw [dictGet_dictSet_ne _ _ _ _ (fun hc => ham hc.symm)]
                exact h
              · by_cases hcm : ((0 : Weight), a, [a]) = m
                · exact absurd (congrArg (fun z : DEntry => z.2.1) hcm) ham
                · exact Or.inr (pushNeighbors_mono _ _ _ _ _ _
                    (removeEntry_mem_of_ne h hcm))
          · -- the goal is still unseen
            rw [dictGet_dictSet_ne _ _ _ _ hgoal]
            exact hG
          · -- the popped distance floors the new queue
            intro e' he'
            rcases pushNeighbors_mem _ _ _ _ _ _ he' with h' | ⟨x, w, hmemx, hex⟩
            · exact hm_min e' (removeEntry_subset h')
            · subst hex
              have hEW := edgeWeight_of_mem_nbrs hnd hmemx
              have hwnn := effW_nonneg (hnn m.2.1 x w hEW)
              show m.1 ≤ m.1 + effW w
              linarith
          · -- the popped distance floors all finalized distances
            intro v d hv
            by_cases hvm : v = m.2.1
            · subst hvm
              rw [dictGet_dictSet_self] at hv
              obtain rfl := Option.some_inj.mp hv
              exact le_rfl
            · rw [dictGet_dictSet_ne _ _ _ _ (fun hc => hvm hc.symm)] at hv
              exact le_trans (hFS v d hv) hfm
          · -- queue nodes live in the vertex universe
            intro e' he'
            rcases pushNeighbors_mem _ _ _ _ _ _ he' with h' | ⟨x, w, hmemx, hex⟩
            · exact hQU e' (removeEntry_subset h')
            · subst hex
              exact hU x (mem_allNbrs (List.mem_map.mpr ⟨(x, w), hmemx, rfl⟩))
          · -- the potential strictly decreases
            have h1 := pushNeighbors_length (dictSet seen m.2.1 m.1) m.1 m.2.2
              (neighbors g m.2.1) (removeEntry (e :: rest) m)
            have h2 := neighbors_length_le g m.2.1
            have h3 := removeEntry_length hm_mem
            have h4 := seenFilter_card_lt U seen m.2.1 m.1 (hQU m hm_mem) hmnone
            have h5 : ((U.filter
                  (fun v => dictGet (dictSet seen m.2.1 m.1) v = none)).card + 1) *
                  (totalNbrLen g + 1) ≤
                (U.filter (fun v => dictGet seen v = none)).card *
                  (totalNbrLen g + 1) :=
              Nat.mul_le_mul_right _ h4
            rw [Nat.add_mul, one_mul] at h5
            omega

theorem dijkstra_eq_loop (g : AdjList) (a b : String) (hab : ¬ a = b)
    (ha : hasKey g a = true) (hb : hasKey g b = true) :
    dijkstra g a b = dijkstraLoop g b (dijkstraFuel g) [(0, a, [a])] [] := by
  unfold dijkstra
  rw [if_neg hab, if_neg (fun hc => hc.elim (fun h => h ha) (fun h => h hb))]

theorem dijkstra_loop_init (g : AdjList) (a b : String) (hnn : NonnegW g)
    (hnd : NodupNbrKeys g) :
    (∃ d p, dijkstraLoop g b (dijkstraFuel g) [(0, a, [a])] [] = some (some (d, p)) ∧
      IsPath g a b p ∧ pathCostE g p = d ∧
      ∀ q, IsPath g a b q → d ≤ pathCostE g q) ∨
    (dijkstraLoop g b (dijkstraFuel g) [(0, a, [a])] [] = some none ∧
      ¬ Reachable g a b) := by
  have hU : ∀ x ∈ allNbrs g, x ∈ insert a (allNbrs g).toFinset := fun x hx =>
    Finset.mem_insert_of_mem (List.mem_toFinset.mpr hx)
  refine dijkstraLoop_spec g a b hnn hnd (insert a (allNbrs g).toFinset) hU
    (dijkstraFuel g) [(0, a, [a])] [] 0 ?_ ?_ ?_ ?_ rfl ?_ ?_ ?_ ?_
  · intro e he
    rw [List.mem_singleton] at he
    subst he
    exact ⟨isPath_singleton g a, rfl⟩
  · intro v d hv
    simp [dictGet] at hv
  · intro v d hv
    simp [dictGet] at hv
  · exact Or.inr (List.mem_singleton.mpr rfl)
  · intro e he
    rw [List.mem_singleton] at he
    subst he
    exact le_rfl
  · intro v d hv
    simp [dictGet] at hv
  · intro e he
    rw [List.mem_singleton] at he
    subst he
    exact Finset.mem_insert_self a _
  · have hK : (Finset.filter
        (fun v => dictGet ([] : List (String × Weight)) v = none)
        (insert a (allNbrs g).toFinset)).card ≤ totalNbrLen g + 1 := by
      refine le_trans (Finset.card_filter_le _ _) ?_
      refine le_trans (Finset.card_insert_le _ _) ?_
      have h3 := List.toFinset_card_le (allNbrs g)
      have h4 := allNbrs_length g
      omega
    have h5 := Nat.mul_le_mul_right (totalNbrLen g + 1) hK
    simp only [dijkstraFuel, List.length_singleton]
    omega

/-- C2: on graphs with strictly positive edge weights and duplicate-free
neighbor dicts, for present endpoints `dijkstra` returns `(0.0, [a])` when the
endpoints coincide, a minimal stored-weight path with its exact stored cost
when the goal is reachable, and `None` when it is not. -/
theorem C2_dijkstra_shortest (g : AdjList) (a b : String) (hpos : PosW g)
    (hnd : NodupNbrKeys g) (ha : hasKey g a = true) (hb : hasKey g b = true) :
    (a = b → dijkstra g a b = some (some (0, [a]))) ∧
    (a ≠ b → Reachable g a b →
      ∃ d p, dijkstra g a b = some (some (d, p)) ∧ IsPath g a b p ∧
        pathCostStored g p = d ∧
        ∀ q, IsPath g a b q → d ≤ pathCostStored g q) ∧
    (a ≠ b → ¬ Reachable g a b → dijkstra g a b = some none) := by
  have hnn : NonnegW g := fun x y w h => le_of_lt (hpos x y w h)
  have hloop := dijkstra_loop_init g a b hnn hnd
  refine ⟨?_, ?_, ?_⟩
  · intro hab
    unfold dijkstra
    rw [if_pos hab]
  · intro hab hr
    rcases hloop with ⟨d, p, heq, hpath, hcost, hmin⟩ | ⟨heq, hnr⟩
    · refine ⟨d, p, ?_, hpath, ?_, ?_⟩
      · rw [dijkstra_eq_loop g a b hab ha hb]
        exact heq
      · rw [pathCostE_eq_stored g hpos p hpath.2.2.2] at hcost
        exact hcost
      · intro q hq
        have hle := hmin q hq
        rw [pathCostE_eq_stored g hpos q hq.2.2.2] at hle
        exact hle
    · exact absurd hr hnr
  · intro hab hnr
    rcases hloop with ⟨d, p, heq, hpath, hcost, hmin⟩ | ⟨heq, -⟩
    · exact absurd ⟨p, hpath⟩ hnr
    · rw [dijkstra_eq_loop g a b hab ha hb]
      exact heq

/-- Witness for C2 at the two-station graph `gS12`. -/
theorem C2_dijkstra_shortest_witness :
    ("S1" = "S2" → dijkstra gS12 "S1" "S2" = some (some (0, ["S1"]))) ∧
    ("S1" ≠ "S2" → Reachable gS12 "S1" "S2" →
      ∃ d p, dijkstra gS12 "S1" "S2" = some (some (d, p)) ∧
        IsPath gS12 "S1" "S2" p ∧ pathCostStored gS12 p = d ∧
        ∀ q, IsPath gS12 "S1" "S2" q → d ≤ pathCostStored gS12 q) ∧
    ("S1" ≠ "S2" → ¬ Reachable gS12 "S1" "S2" →
      dijkstra gS12 "S1" "S2" = some none) :=
  C2_dijkstra_shortest gS12 "S1" "S2" (posW_of_weights _ (by decide)) (by decide)
    rfl rfl

/-- C10 (amended with nonnegative weights): on a graph with nonnegative
weights and duplicate-free neighbor dicts, if distinct vertices `a`, `b` are
joined by a stored-weight-`0` edge and no other `a`–`b` path has stored cost
below `1.0`, then `dijkstra` substitutes `1.0` for the falsy weight and
returns total distance exactly `1.0`. -/
theorem C10_zero_weight_edge (g : AdjList) (a b : String) (hnn : NonnegW g)
    (hnd : NodupNbrKeys g) (hz : ZeroEdgeOnlyCheapPath g a b) :
    ∃ p, dijkstra g a b = some (some (1, p)) ∧ IsPath g a b p := by
  obtain ⟨hab, ha, hb, h0, hcheap⟩ := hz
  have hadj : adj g a b := by
    unfold adj
    rw [h0]
    rfl
  have hpab : IsPath g a b [a, b] :=
    ⟨by simp, rfl, by simp, List.chain'_pair.mpr hadj⟩
  rcases dijkstra_loop_init g a b hnn hnd with
    ⟨d, p, heq, hpath, hcost, hmin⟩ | ⟨-, hnr⟩
  · have h1 : pathCostE g [a, b] = 1 := by
      simp [pathCostE, h0, effW]
    have hle : d ≤ 1 := h1 ▸ hmin [a, b] hpab
    have hge : 1 ≤ d := by
      by_cases hp : p = [a, b]
      · rw [hp, h1] at hcost
        exact le_of_eq hcost
      · have hst := hcheap p hpath hp
        have hes := pathCostE_ge_stored g hnn p hpath.2.2.2
        linarith
    have hd1 : d = 1 := le_antisymm hle hge
    refine ⟨p, ?_, hpath⟩
    rw [dijkstra_eq_loop g a b hab ha hb, heq, hd1]
  · exact absurd ⟨[a, b], hpab⟩ hnr

/-- Witness for the amended C10 at the zero-weight-edge graph `gZ`. -/
theorem C10_zero_weight_edge_witness :
    ∃ p, dijkstra gZ "A" "B" = some (some (1, p)) ∧ IsPath gZ "A" "B" p :=
  C10_zero_weight_edge gZ "A" "B" (nonnegW_of_weights _ (by decide)) (by decide)
    ⟨by decide, rfl, rfl, rfl, by
      intro q hq hne
      exfalso
      apply hne
      obtain ⟨hnil, hhd, hlast, hchain⟩ := hq
      cases q with
      | nil => exact absurd rfl hnil
      | cons x rest =>
        have hx : x = "A" := by
          rw [List.head?_cons, Option.some_inj] at hhd
          exact hhd
        subst hx
        cases rest with
        | nil =>
          rw [List.getLast?_singleton, Option.some_inj] at hlast
          exact absurd hlast (by decide)
        | cons y rest2 =>
          have hadjy : adj gZ "A" y := (List.chain'_cons.mp hchain).1
          have hy : y = "B" := by
            have hmem := (adj_iff_mem_map_fst gZ "A" y).mp hadjy
            simpa [gZ, neighbors, dictGet] using hmem
          subst hy
          cases rest2 with
          | nil => rfl
          | cons z rest3 =>
            have hadjz : adj gZ "B" z :=
              (List.chain'_cons.mp (List.chain'_cons.mp hchain).2).1
            have hmem := (adj_iff_mem_map_fst gZ "B" z).mp hadjz
            simp [gZ, neighbors, dictGet] at hmem⟩

theorem dijkstraLoop_gNeg_diverges :
    ∀ (fuel : ℕ) (c : Weight) (p : List String) (s : List (String × Weight)),
      (∀ d, dictGet s "C" = some d → c < d) → c < 1 →
      dijkstraLoop gNeg "B" fuel [(1, "B", ["A", "B"]), (c, "C", p)] s = none := by
  intro fuel
  induction fuel with
  | zero =>
    intro c p s _ _
    rfl
  | succ n ih =>
    intro c p s hcd hc1
    have hm : minEntry ((1 : Weight), "B", ["A", "B"]) [(c, "C", p)] =
        (c, "C", p) := by
      simp [minEntry, entryLt, hc1]
    have hskip : seenSkip s "C" c = false := by
      unfold seenSkip
      cases hsd : dictGet s "C" with
      | none => rfl
      | some d => exact decide_eq_false_iff_not.mpr (not_le.mpr (hcd d hsd))
    rw [dijkstraLoop_cons_push gNeg "B" n ((1 : Weight), "B", ["A", "B"])
      [(c, "C", p)] s
      (by rw [hm]; exact hskip)
      (by rw [hm]; show ¬ ("C" : String) = "B"; decide), hm]
    show dijkstraLoop gNeg "B" n
        (pushNeighbors (dictSet s "C" c) c p
          (removeEntry [((1 : Weight), "B", ["A", "B"]), (c, "C", p)] (c, "C", p))
          (neighbors gNeg "C"))
        (dictSet s "C" c) = none
    have hrem : removeEntry [((1 : Weight), "B", ["A", "B"]), (c, "C", p)]
        (c, "C", p) = [((1 : Weight), "B", ["A", "B"])] := by
      have hne1 : ¬ (((1 : Weight), "B", ["A", "B"]) = ((c : Weight), "C", p)) := by
        intro h
        have := congrArg (fun z : DEntry => z.2.1) h
        simp at this
      simp [removeEntry, hne1]
    have hnbr : neighbors gNeg "C" = [("C", (-1 : Weight))] := rfl
    rw [hrem, hnbr]
    have hpush : pushNeighbors (dictSet s "C" c) c p
        [((1 : Weight), "B", ["A", "B"])] [("C", (-1 : Weight))] =
        [((1 : Weight), "B", ["A", "B"]), (c + -1, "C", p ++ ["C"])] := by
      have hif : (if (-1 : Weight) = 0 then (1 : Weight) else -1) = -1 := by
        norm_num
      have hgetC : dictGet (dictSet s "C" c) "C" = some c :=
        dictGet_dictSet_self s "C" c
      have hlt : c + (if (-1 : Weight) = 0 then (1 : Weight) else -1) < c := by
        rw [hif]
        linarith
      rw [pushNeighbors_cons_lt c p (-1) [] [((1 : Weight), "B", ["A", "B"])]
        hgetC hlt, hif]
      rfl
    rw [hpush]
    refine ih (c + -1) (p ++ ["C"]) (dictSet s "C" c) ?_ (by linarith)
    intro d hd
    rw [dictGet_dictSet_self] at hd
    obtain rfl := Option.some_inj.mp hd
    linarith

theorem gNeg_chain_from_C :
    ∀ rest, List.Chain' (adj gNeg) ("C" :: rest) →
      ("C" :: rest).getLast? = some "C" := by
  intro rest
  induction rest with
  | nil =>
    intro _
    rfl
  | cons z rest2 ih =>
    intro hchain
    have hadj : adj gNeg "C" z := (List.chain'_cons.mp hchain).1
    have hz : z = "C" := by
      have hmem := (adj_iff_mem_map_fst gNeg "C" z).mp hadj
      simpa [gNeg, neighbors, dictGet] using hmem
    subst hz
    rw [List.getLast?_cons_cons]
    exact ih (List.chain'_cons.mp hchain).2

/-- C10 counterexample: at `gNeg` every hypothesis of the claim holds —
distinct vertices `A`, `B` joined by a stored-weight-`0` edge, and no other
`A`–`B` path at all — yet `dijkstra`'s loop never returns at any fuel (the
negative self-loop on `C` keeps producing strictly cheaper entries), so the
call does not return `1.0`: in Python it loops forever. -/
theorem C10_gNeg_counterexample :
    ZeroEdgeOnlyCheapPath gNeg "A" "B" ∧
    dijkstraNeverReturns gNeg "A" "B" ∧ dijkstra gNeg "A" "B" = none := by
  have hnever : dijkstraNeverReturns gNeg "A" "B" := by
    intro fuel
    match fuel with
    | 0 => rfl
    | (n + 1) =>
      rw [dijkstraLoop_cons_push gNeg "B" n ((0 : Weight), "A", ["A"]) [] []
        (by rfl) (by show ¬ ("A" : String) = "B"; decide)]
      have hq1 : pushNeighbors
          (dictSet [] (minEntry ((0 : Weight), "A", ["A"]) []).2.1
            (minEntry ((0 : Weight), "A", ["A"]) []).1)
          (minEntry ((0 : Weight), "A", ["A"]) []).1
          (minEntry ((0 : Weight), "A", ["A"]) []).2.2
          (removeEntry [((0 : Weight), "A", ["A"])]
            (minEntry ((0 : Weight), "A", ["A"]) []))
          (neighbors gNeg (minEntry ((0 : Weight), "A", ["A"]) []).2.1) =
          [((1 : Weight), "B", ["A", "B"]), ((1 / 2 : Weight), "C", ["A", "C"])] := by
        show pushNeighbors [("A", (0 : Weight))] 0 ["A"]
            (removeEntry [((0 : Weight), "A", ["A"])] ((0 : Weight), "A", ["A"]))
            (neighbors gNeg "A") = _
        norm_num [pushNeighbors, dictGet, removeEntry, neighbors, gNeg]
        rw [if_neg (show ¬ ("A" : String) = "C" by decide),
          if_neg (show ¬ ("A" : String) = "B" by decide)]
        rfl
      have hs1 : dictSet [] (minEntry ((0 : Weight), "A", ["A"]) []).2.1
          (minEntry ((0 : Weight), "A", ["A"]) []).1 = [("A", (0 : Weight))] := rfl
      rw [hq1, hs1]
      refine dijkstraLoop_gNeg_diverges n (1 / 2) ["A", "C"] [("A", (0 : Weight))]
        ?_ (by norm_num)
      intro d hd
      simp [dictGet] at hd
  refine ⟨⟨by decide, rfl, rfl, rfl, ?_⟩, hnever, ?_⟩
  · intro q hq hne
    exfalso
    apply hne
    obtain ⟨hnil, hhd, hlast, hchain⟩ := hq
    cases q with
    | nil => exact absurd rfl hnil
    | cons x rest =>
      have hx : x = "A" := by
        rw [List.head?_cons, Option.some_inj] at hhd
        exact hhd
      subst hx
      cases rest with
      | nil =>
        rw [List.getLast?_singleton, Option.some_inj] at hlast
        exact absurd hlast (by decide)
      | cons y rest2 =>
        have hadjy : adj gNeg "A" y := (List.chain'_cons.mp hchain).1
        have hy : y = "B" ∨ y = "C" := by
          have hmem := (adj_iff_mem_map_fst gNeg "A" y).mp hadjy
          simpa [gNeg, neighbors, dictGet] using hmem
        rcases hy with hy | hy
        · subst hy
          cases rest2 with
          | nil => rfl
          | cons z rest3 =>
            have hadjz : adj gNeg "B" z :=
              (List.chain'_cons.mp (List.chain'_cons.mp hchain).2).1
            have hmem := (adj_iff_mem_map_fst gNeg "B" z).mp hadjz
            simp [gNeg, neighbors, dictGet] at hmem
        · subst hy
          have hlastC := gNeg_chain_from_C rest2 (List.chain'_cons.mp hchain).2
          rw [List.getLast?_cons_cons, hlastC, Option.some_inj] at hlast
          exact absurd hlast (by decide)
  · rw [dijkstra_eq_loop gNeg "A" "B" (by decide) rfl rfl]
    exact hnever (dijkstraFuel gNeg)

end DMRC
